import Mathlib

/-!
Verification of the orgchart tree-builder, layout engine and viewport transform.

This file is a shallow embedding of the position-relevant core of
`SimpleOrgChart.js` and `HTMLOrgChart.js`:

* `processData` (SimpleOrgChart.js lines 95-137, HTMLOrgChart.js lines 74-116):
  deduplication of input records by id, the id-indexed node map, and the
  second pass that resolves parent references, assigns levels and collects
  root nodes.  Node objects are JS heap objects indexed by id; we model the
  heap as an association list from id to node payload, and `children` as a
  list of ids (faithful because ids are unique after deduplication).
* the layout engine of `SimpleOrgChart.js` (`calculateDimensions`,
  `buildVisibleTree`, `assignXPositions`, the per-level collision scan and
  `adjustSubtreePositions`), with positions in `ℚ` standing for JS floats.
* `sortNodes` of both variants, `configureInitialExpansion` of both
  variants, `handleWheel` of HTMLOrgChart and `adjustZoom` / `setZoom` of
  SimpleOrgChart.

Ids in the JS input are numbers or strings; the builder also relies on JS
truthiness of the `pid` field (`node.pid && nodeMap.has(node.pid)`), which
we model with `JsVal.truthy`.  A `pid` of `null` or an absent `pid` is
modelled as `none`.
-/

namespace OrgChart

/-- A JS primitive usable as an id: a number or a string. -/
inductive JsVal where
  | num (n : Int)
  | str (s : String)
  deriving DecidableEq, Repr

/-- JS truthiness of an id value: `0` and the empty string are falsy. -/
def JsVal.truthy : JsVal → Bool
  | .num n => n != 0
  | .str s => s != ""

/-- An input record `{id, pid, name, ...}`.  `pid := none` models a `null`
or absent parent reference. -/
structure Record where
  id : JsVal
  pid : Option JsVal
  name : String
  deriving DecidableEq, Repr

/-- The mutable payload of a processed node: its `level` field and its
`children` array (children are stored by id; ids are unique after the
dedup pass, so this is faithful to the JS object graph). -/
structure PNode where
  level : Nat
  children : List JsVal
  deriving DecidableEq, Repr

/-- The id-indexed node map (`nodeMap` in the source). -/
abbrev NodeMap := List (JsVal × PNode)

/-- Lookup of a node by id (`nodeMap.get`). -/
def findNode : NodeMap → JsVal → Option PNode
  | [], _ => none
  | (k', v) :: rest, k => if k = k' then some v else findNode rest k

/-- Membership test (`nodeMap.has`). -/
def hasNode (m : NodeMap) (k : JsVal) : Bool := (findNode m k).isSome

/-- Assignment `nodeMap.get(k).level = lv`. -/
def setLevel : NodeMap → JsVal → Nat → NodeMap
  | [], _, _ => []
  | (k', v) :: rest, k, lv =>
      (if k' = k then (k', { v with level := lv }) else (k', v)) :: setLevel rest k lv

/-- Mutation `nodeMap.get(k).children.push(c)`. -/
def pushChild : NodeMap → JsVal → JsVal → NodeMap
  | [], _, _ => []
  | (k', v) :: rest, k, c =>
      (if k' = k then (k', { v with children := v.children ++ [c] }) else (k', v)) ::
        pushChild rest k c

/-- First dedup pass over the raw input (`seenIds` loop, SimpleOrgChart.js
lines 99-107): keep the first record for each id. -/
def dedupGo (seen : List JsVal) : List Record → List Record
  | [] => []
  | r :: rest =>
      if r.id ∈ seen then dedupGo seen rest
      else r :: dedupGo (r.id :: seen) rest

/-- Deduplicated input data (`uniqueData` in the source). -/
def dedupById (l : List Record) : List Record := dedupGo [] l

/-- First pass over `uniqueData`: every record enters the map with an empty
children array and level 0 (SimpleOrgChart.js lines 112-119). -/
def initialMap (l : List Record) : NodeMap :=
  l.map fun r => (r.id, { level := 0, children := [] })

/-- State threaded through the second pass: the node map plus the `rootNodes`
array (stored by id). -/
structure BuildState where
  map : NodeMap
  roots : List JsVal
  deriving DecidableEq, Repr

/-- The test `node.pid && nodeMap.has(node.pid)` (SimpleOrgChart.js line
128): the parent reference resolves only when `pid` is truthy and present
in the node map. -/
def resolvedParent (m : NodeMap) (r : Record) : Option JsVal :=
  match r.pid with
  | some p => if p.truthy && hasNode m p then some p else none
  | none => none

/-- One iteration of the second pass (SimpleOrgChart.js lines 124-137):
with a resolved parent, set the child's level to the parent's current
level plus one and push the child onto the parent's children; otherwise
the record becomes a root at level 0. -/
def buildStep (st : BuildState) (r : Record) : BuildState :=
  match resolvedParent st.map r with
  | some p =>
      let plv := ((findNode st.map p).map PNode.level).getD 0
      { map := pushChild (setLevel st.map r.id (plv + 1)) p r.id, roots := st.roots }
  | none =>
      { map := setLevel st.map r.id 0, roots := st.roots ++ [r.id] }

/-- The hierarchy-building core of `processData` (both variants): dedup,
initial map, then the fold that resolves parents.  The subsequent sibling
sorting permutes `children` arrays but does not alter levels, membership of
`children`, or `rootNodes` membership, so the graph-level claims are stated
about this state. -/
def processData (l : List Record) : BuildState :=
  (dedupById l).foldl buildStep { map := initialMap (dedupById l), roots := [] }

/-- The children relation of the built object graph: `y` is an element of
the `children` array of node `x`. -/
def childRel (m : NodeMap) (x y : JsVal) : Prop :=
  y ∈ ((findNode m x).map PNode.children).getD []

instance (m : NodeMap) (x y : JsVal) : Decidable (childRel m x y) := by
  unfold childRel; infer_instance

/-- The final `level` field of the node with id `k` (0 if absent). -/
def levelOf (m : NodeMap) (k : JsVal) : Nat :=
  ((findNode m k).map PNode.level).getD 0

/-- The keys of the node map. -/
def keysOf (m : NodeMap) : List JsVal := m.map Prod.fst

/-- Total number of occurrences of `y` across all `children` arrays. -/
def childCount (m : NodeMap) (y : JsVal) : Nat :=
  (m.map fun e => e.2.children.count y).sum

/-- The combined ownership count of an id: occurrences in children arrays
plus occurrences in the root list.  The second pass gives every processed
record exactly one owner. -/
def ownCount (st : BuildState) (y : JsVal) : Nat :=
  childCount st.map y + st.roots.count y

/-- Decidable statement that every record whose parent reference resolves
(truthy `pid` present among `allIds`) occurs after its parent record.
`seen` accumulates the ids already passed. -/
def parentsFirst (allIds : List JsVal) : List JsVal → List Record → Bool
  | _, [] => true
  | seen, r :: rest =>
      (match r.pid with
       | some p => !(p.truthy && allIds.contains p) || seen.contains p
       | none => true) && parentsFirst allIds (r.id :: seen) rest

/-- Input with a child record occurring before its parent record: id 3 is
processed while its parent (id 2) still has the provisional level 0. -/
def outOfOrderRecords : List Record :=
  [⟨.num 3, some (.num 2), "c"⟩, ⟨.num 2, some (.num 1), "b"⟩, ⟨.num 1, none, "a"⟩]

/-- Input in which two records name each other as parent. -/
def mutualParentRecords : List Record :=
  [⟨.num 1, some (.num 2), "a"⟩, ⟨.num 2, some (.num 1), "b"⟩]

/-- A small well-ordered input: a root and one child. -/
def demoRecords : List Record :=
  [⟨.num 1, none, "a"⟩, ⟨.num 2, some (.num 1), "b"⟩]

/-- A record with the falsy pid `0` although a record with id `0` exists. -/
def falsyPidRecords : List Record :=
  [⟨.num 5, some (.num 0), "e"⟩, ⟨.num 0, none, "z"⟩]

/-- Invariant carried through the second pass: every child edge built so far
connects already-processed ids and satisfies the level equation. -/
def LevelInv (st : BuildState) (seen : List JsVal) : Prop :=
  ∀ x y, childRel st.map x y →
    levelOf st.map y = levelOf st.map x + 1 ∧ x ∈ seen ∧ y ∈ seen

/-!
Layout engine of SimpleOrgChart.js (`calculateDimensions`,
`assignXPositions`, the per-level collision scan and
`adjustSubtreePositions`).  The tree handed to the layout is
`hierarchicalData` with ids abstracted to `Nat` (the layout compares ids
only for equality); positions are rationals standing for JS floats.  The
parts of `calculateDimensions` that only compute the SVG surface size
(`maxDepth`, `nodeCountByLevel`, `widthsNeededByLevel`, `svgWidth`,
`adjustSVGSize`) never write `nodePositions` and are omitted.
-/

mutual
inductive Tree where
  | mk (id : Nat) (children : TForest)
  deriving DecidableEq, Repr
inductive TForest where
  | nil
  | cons (t : Tree) (ts : TForest)
  deriving DecidableEq, Repr
end

def Tree.tid : Tree → Nat
  | .mk i _ => i

def Tree.tchildren : Tree → TForest
  | .mk _ cs => cs

def TForest.length : TForest → Nat
  | .nil => 0
  | .cons _ ts => ts.length + 1

def TForest.toList : TForest → List Tree
  | .nil => []
  | .cons t ts => t :: ts.toList

def TForest.allIds : TForest → List Nat
  | .nil => []
  | .cons (.mk i cs) ts => i :: (cs.allIds ++ ts.allIds)

/-- Options relevant to the horizontal layout: `nodeWidth`,
`horizontalSpacing` and the expansion map `expandedNodes` (total on ids). -/
structure LayoutOpts where
  nodeWidth : ℚ
  horizontalSpacing : ℚ
  exp : Nat → Bool

/- The temporary visible tree (`nodeInfo` objects of `buildVisibleTree`,
SimpleOrgChart.js lines 294-339): the original node, the visible child
infos, and the computed width reservation. -/
mutual
inductive VInfo where
  | mk (node : Tree) (children : VForest) (width : ℚ)
inductive VForest where
  | nil
  | cons (v : VInfo) (vs : VForest)
end

def VInfo.node : VInfo → Tree
  | .mk t _ _ => t

def VInfo.vchildren : VInfo → VForest
  | .mk _ cs _ => cs

def VInfo.width : VInfo → ℚ
  | .mk _ _ w => w

def VForest.length : VForest → Nat
  | .nil => 0
  | .cons _ vs => vs.length + 1

/-- Ids of the top entries of a visible forest. -/
def VForest.nodeIds : VForest → List Nat
  | .nil => []
  | .cons v vs => v.node.tid :: vs.nodeIds

/-- The entry at index `j` of a visible sibling list (the loop index of the
second pass of `assignXPositions`). -/
def VForest.get : VForest → Nat → Option VInfo
  | .nil, _ => none
  | .cons v _, 0 => some v
  | .cons _ vs, j + 1 => vs.get j

/-- Accumulation `tree.totalWidth += nodeInfo.width + horizontalSpacing`
(line 331). -/
def vwidthSum (o : LayoutOpts) : VForest → ℚ
  | .nil => 0
  | .cons v vs => v.width + o.horizontalSpacing + vwidthSum o vs

/-- Total width of a visible forest: the accumulated sum with the trailing
spacing removed when positive (lines 334-336). -/
def vtotalWidth (o : LayoutOpts) (vs : VForest) : ℚ :=
  let s := vwidthSum o vs
  if s > 0 then s - o.horizontalSpacing else s

/- The `buildVisibleTree` recursion (lines 294-342): a node reserves
`nodeWidth`; when it has children and is expanded it reserves at least the
children's total width, plus half a spacing when there are more than three
children. -/
def buildVForest (o : LayoutOpts) : TForest → VForest
  | .nil => .nil
  | .cons (.mk i cs) ts =>
      let vi :=
        if (cs.length != 0) && o.exp i then
          let sub := buildVForest o cs
          let minW := max o.nodeWidth (vtotalWidth o sub)
          let w := if cs.length > 3 then minW + o.horizontalSpacing * (1/2 : ℚ) else minW
          VInfo.mk (.mk i cs) sub w
        else
          VInfo.mk (.mk i cs) .nil o.nodeWidth
      .cons vi (buildVForest o ts)

/-- The entry `buildVisibleTree` creates for one node. -/
def buildVInfo (o : LayoutOpts) : Tree → VInfo
  | .mk i cs =>
      if (cs.length != 0) && o.exp i then
        let sub := buildVForest o cs
        let minW := max o.nodeWidth (vtotalWidth o sub)
        let w := if cs.length > 3 then minW + o.horizontalSpacing * (1/2 : ℚ) else minW
        .mk (.mk i cs) sub w
      else
        .mk (.mk i cs) .nil o.nodeWidth

/-- Position map `nodePositions`: id to `(x, level)`.  A JS object write is
modelled by consing; `posFind` reads the newest entry. -/
abbrev PosMap := List (Nat × ℚ × Nat)

def posFind : PosMap → Nat → Option (ℚ × Nat)
  | [], _ => none
  | (k', v) :: rest, k => if k = k' then some v else posFind rest k

/-- Assignment `this.nodePositions[id] = {x, level}`. -/
def posSet (p : PosMap) (k : Nat) (v : ℚ × Nat) : PosMap := (k, v) :: p

/-- Mutation `this.nodePositions[id].x += d` (no effect on an absent id). -/
def posAddX : PosMap → Nat → ℚ → PosMap
  | [], _, _ => []
  | (k', x, lv) :: rest, k, d =>
      (if k' = k then (k', x + d, lv) else (k', x, lv)) :: posAddX rest k d

/-- The x read `this.nodePositions[id].x` with 0 for an absent id (the
source also uses `?.x || 0` in the centering pass). -/
def posX (p : PosMap) (k : Nat) : ℚ :=
  ((posFind p k).map Prod.fst).getD 0

/-- The level field of a position entry. -/
def posLevel (p : PosMap) (k : Nat) : Option Nat :=
  (posFind p k).map Prod.snd

/-- State threaded through `assignXPositions`: `nodePositions` and
`nodesAtLevel`. -/
structure LState where
  positions : PosMap
  rows : List (List Tree)

/-- The guard `if (!this.nodesAtLevel[currentLevel])
this.nodesAtLevel[currentLevel] = []` (lines 1361-1363): extend the
level-indexed array so the index exists. -/
def ensureRow (rows : List (List Tree)) (lvl : Nat) : List (List Tree) :=
  if rows.length ≤ lvl then rows ++ List.replicate (lvl + 1 - rows.length) [] else rows

/-- The push `this.nodesAtLevel[currentLevel].push(nodeInfo.node)`
(line 1381). -/
def pushRow (rows : List (List Tree)) (lvl : Nat) (t : Tree) : List (List Tree) :=
  rows.set lvl (rows.getD lvl [] ++ [t])

/-- The helper `calculateTotalWidth` (lines 1366-1376): every child counts
`nodeWidth + horizontalSpacing`, minus the trailing spacing (0 for an empty
list). -/
def calculateTotalWidth (o : LayoutOpts) (n : Nat) : ℚ :=
  if n = 0 then 0 else n * (o.nodeWidth + o.horizontalSpacing) - o.horizontalSpacing

/-- The reads `this.nodePositions[id]?.x || 0` over a list of child ids
(line 1420). -/
def childXs (p : PosMap) : List Nat → List ℚ
  | [] => []
  | i :: is => posX p i :: childXs p is

/-- `Math.min(...xs)` over a nonempty list (0 on the empty list, which the
caller rules out). -/
def qMin : List ℚ → ℚ
  | [] => 0
  | x :: xs => xs.foldl min x

/-- `Math.max(...xs)` over a nonempty list. -/
def qMax : List ℚ → ℚ
  | [] => 0
  | x :: xs => xs.foldl max x

/-- Second pass of `assignXPositions` (lines 1413-1443): a parent with
visible children is placed at the midpoint of its children's min and max x;
a childless entry at index `i` is overwritten with
`endX - spacing - nodeWidth/2 + i*(nodeWidth + spacing)` where `endX` is
the cursor value after the first pass.  (The source's branch for an empty
`childrenXPositions` array at lines 1429-1435 is unreachable because the
guard at line 1417 makes the mapped list nonempty.) -/
def pass2 (o : LayoutOpts) (endX : ℚ) (lvl : Nat) : VForest → Nat → LState → LState
  | .nil, _, s => s
  | .cons (.mk nd .nil _) vs, i, s =>
      let x := endX - o.horizontalSpacing - o.nodeWidth / 2
        + (i : ℚ) * (o.nodeWidth + o.horizontalSpacing)
      pass2 o endX lvl vs (i + 1)
        { s with positions := posSet s.positions nd.tid (x, lvl) }
  | .cons (.mk nd (.cons c cs') _) vs, i, s =>
      let xs := childXs s.positions (VForest.cons c cs').nodeIds
      let x := (qMin xs + qMax xs) / 2
      pass2 o endX lvl vs (i + 1)
        { s with positions := posSet s.positions nd.tid (x, lvl) }

/-- First pass of `assignXPositions` (lines 1378-1411), with the recursive
call to the full `assignXPositions` on the children inlined (ensure the
child row, run the first pass, run the second pass).  Returns the final
cursor value together with the state. -/
def pass1 (o : LayoutOpts) : VForest → ℚ → Nat → LState → (ℚ × LState)
  | .nil, startX, _, s => (startX, s)
  | .cons (.mk nd .nil w) vs, startX, lvl, s =>
      let s0 : LState := { s with rows := pushRow s.rows lvl nd }
      let s1 : LState :=
        { s0 with positions := posSet s0.positions nd.tid (startX + w / 2, lvl) }
      pass1 o vs (startX + w + o.horizontalSpacing) lvl s1
  | .cons (.mk nd (.cons c cs') w) vs, startX, lvl, s =>
      let s0 : LState := { s with rows := pushRow s.rows lvl nd }
      let childrenWidth := calculateTotalWidth o (VForest.cons c cs').length
      let childrenStartX :=
        if o.nodeWidth > childrenWidth then startX + (o.nodeWidth - childrenWidth) / 2
        else startX
      let s1 : LState := { s0 with rows := ensureRow s0.rows (lvl + 1) }
      let r2 := pass1 o (VForest.cons c cs') childrenStartX (lvl + 1) s1
      let s3 := pass2 o r2.1 (lvl + 1) (VForest.cons c cs') 0 r2.2
      pass1 o vs (startX + w + o.horizontalSpacing) lvl s3

/-- Full `assignXPositions` on one sibling list: ensure the row for this
level, then the two passes. -/
def assignX (o : LayoutOpts) (vs : VForest) (startX : ℚ) (lvl : Nat) (s : LState) : LState :=
  let s0 : LState := { s with rows := ensureRow s.rows lvl }
  let r1 := pass1 o vs startX lvl s0
  pass2 o r1.1 lvl vs 0 r1.2

/-- The loop body of `adjustSubtreePositions` (lines 1455-1460) with the
recursive call inlined: each child with a position is shifted, then (unless
that child is childless or collapsed) its own children are processed. -/
def adjustForest (o : LayoutOpts) (adj : ℚ) : TForest → PosMap → PosMap
  | .nil, p => p
  | .cons (.mk j ccs) cs, p =>
      let p' :=
        if (posFind p j).isSome then
          let p1 := posAddX p j adj
          if ccs.length = 0 ∨ o.exp j = false then p1 else adjustForest o adj ccs p1
        else p
      adjustForest o adj cs p'

/-- `adjustSubtreePositions` (lines 1451-1461): nothing moves when the node
has no children or is collapsed; otherwise every child with a position is
shifted and its subtree adjusted recursively. -/
def adjustSubtree (o : LayoutOpts) (adj : ℚ) : Tree → PosMap → PosMap
  | .mk i cs =>
      fun p => if cs.length = 0 ∨ o.exp i = false then p else adjustForest o adj cs p

/-- Stable insertion used to model the (stable) JS `Array.prototype.sort`
with comparator `(a, b) => pos[a].x - pos[b].x` (line 353): an element is
inserted after all elements whose x is not greater. -/
def insertByX (p : PosMap) (t : Tree) : List Tree → List Tree
  | [] => [t]
  | u :: us => if posX p t.tid < posX p u.tid then t :: u :: us else u :: insertByX p t us

def sortByX (p : PosMap) (ts : List Tree) : List Tree :=
  ts.foldl (fun acc t => insertByX p t acc) []

/-- The shift of `nodes[j]` for `j = i..n-1` (lines 366-371): add the
adjustment to each node's x and to its whole visible subtree. -/
def shiftTrees (o : LayoutOpts) (adj : ℚ) : List Tree → PosMap → PosMap
  | [], p => p
  | t :: ts, p => shiftTrees o adj ts (adjustSubtree o adj t (posAddX p t.tid adj))

/-- The left-to-right scan over one sorted level (lines 356-373): whenever
the current node is closer than `nodeWidth + horizontalSpacing` to its
predecessor, the current node and every later node of the level (with their
subtrees) move right by the deficit. -/
def scanGo (o : LayoutOpts) : Tree → List Tree → PosMap → PosMap
  | _, [], p => p
  | prev, cur :: rest, p =>
      let dist := posX p cur.tid - posX p prev.tid
      if dist < o.nodeWidth + o.horizontalSpacing then
        let adj := o.nodeWidth + o.horizontalSpacing - dist
        scanGo o cur rest (shiftTrees o adj (cur :: rest) p)
      else
        scanGo o cur rest p

/-- Collision resolution for one level (lines 348-374): levels with at most
one node are skipped, otherwise the level is sorted by current x and
scanned. -/
def scanLevel (o : LayoutOpts) (nodes : List Tree) (p : PosMap) : PosMap :=
  if nodes.length ≤ 1 then p
  else
    match sortByX p nodes with
    | [] => p
    | t :: ts => scanGo o t ts p

/-- The per-level loop `for (let level = 0; level < nodesAtLevel.length;
level++)` of `calculateDimensions`. -/
def collisionAdjust (o : LayoutOpts) (s : LState) : PosMap :=
  (List.range s.rows.length).foldl (fun p lvl => scanLevel o (s.rows.getD lvl []) p) s.positions

/-- The position-relevant part of `calculateDimensions` up to and including
`assignXPositions` (lines 245-345): reset `nodesAtLevel` and
`nodePositions`, build the visible tree, assign x positions starting at
`horizontalSpacing` on level 0. -/
def layoutState (o : LayoutOpts) (ts : TForest) : LState :=
  assignX o (buildVForest o ts) o.horizontalSpacing 0 ⟨[], []⟩

/-- The final `nodePositions` produced by `calculateDimensions` (lines
245-374): x assignment followed by the same-level collision adjustment. -/
def layout (o : LayoutOpts) (ts : TForest) : PosMap :=
  collisionAdjust o (layoutState o ts)

/-- The per-level collision loop truncated to the first `K` levels. -/
def collisionFold (o : LayoutOpts) (s : LState) (K : Nat) : PosMap :=
  (List.range K).foldl (fun p lvl => scanLevel o (s.rows.getD lvl []) p) s.positions

/-- All ids of a visible forest in preorder. -/
def VForest.ids : VForest → List Nat
  | .nil => []
  | .cons (.mk t cs _) vs => t.tid :: (cs.ids ++ vs.ids)

/-- All ids of one visible subtree. -/
def VInfo.ids (v : VInfo) : List Nat := v.node.tid :: v.vchildren.ids

/-- The visible-tree entries sitting exactly `d` levels below the top of a
visible forest (the nodes `assignXPositions` pushes onto
`nodesAtLevel[lvl + d]`, in push order). -/
def rowVis : Nat → VForest → List VInfo
  | _, .nil => []
  | 0, .cons v vs => v :: rowVis 0 vs
  | d + 1, .cons v vs => rowVis d v.vchildren ++ rowVis (d + 1) vs

/-- Ids of the entries `d` levels below the top. -/
def rowIds (d : Nat) (vs : VForest) : List Nat :=
  (rowVis d vs).map fun v => v.node.tid

/-- The original tree nodes `d` levels below the top (the content of
`nodesAtLevel[lvl + d]`). -/
def rowNodes (d : Nat) (vs : VForest) : List Tree :=
  (rowVis d vs).map VInfo.node

/-- The ids visited by `adjustForest`: each child id, followed by that
child's own visited ids when the child is expanded with children. -/
def visChIds (o : LayoutOpts) : TForest → List Nat
  | .nil => []
  | .cons (.mk j ccs) cs =>
      (j :: (if ccs.length = 0 ∨ o.exp j = false then [] else visChIds o ccs)) ++ visChIds o cs

/-- The ids `adjustSubtreePositions` visits below a node: nothing when the
node is collapsed or childless, otherwise its children's visited ids. -/
def visDescIds (o : LayoutOpts) : Tree → List Nat
  | .mk i cs => if cs.length = 0 ∨ o.exp i = false then [] else visChIds o cs

/-- The default SimpleOrgChart geometry (`nodeWidth` 180,
`horizontalSpacing` 60) with every node expanded. -/
def sampleOpts : LayoutOpts := ⟨180, 60, fun _ => true⟩

/-- The centering counterexample root: id 0, whose first child (id 1) has
two children (ids 3, 4) and whose second child (id 2) has one child
(id 5). -/
def cexRoot : Tree :=
  .mk 0 (.cons (.mk 1 (.cons (.mk 3 .nil) (.cons (.mk 4 .nil) .nil)))
    (.cons (.mk 2 (.cons (.mk 5 .nil) .nil)) .nil))

def cexTree : TForest := .cons cexRoot .nil

/-- Two childless roots, for the pass-2 counterexample. -/
def twoRoots : TForest := .cons (.mk 10 .nil) (.cons (.mk 11 .nil) .nil)

/-- A node as seen by `sortNodes`: its id and the value of the configured
sort field (`name`), already a string. -/
structure SRec where
  sid : Int
  sname : String
deriving DecidableEq, Repr

/-- The SimpleOrgChart comparator (lines 1681-1699): case-insensitive field
comparison, ties broken by `a.id - b.id` (negated when descending). -/
def cmpS (asc : Bool) (a b : SRec) : Int :=
  let va := a.sname.toLower
  let vb := b.sname.toLower
  if va < vb then (if asc then -1 else 1)
  else if vb < va then (if asc then 1 else -1)
  else (if asc then a.sid - b.sid else b.sid - a.sid)

/-- The HTMLOrgChart comparator (lines 158-170): case-insensitive field
comparison, 0 on ties. -/
def cmpH (asc : Bool) (a b : SRec) : Int :=
  let va := a.sname.toLower
  let vb := b.sname.toLower
  if va < vb then (if asc then -1 else 1)
  else if vb < va then (if asc then 1 else -1)
  else 0

/-- Stable insertion modelling the (stable) JS `Array.prototype.sort`: an
element passes every element it does not strictly precede. -/
def insertC (c : SRec → SRec → Int) (a : SRec) : List SRec → List SRec
  | [] => [a]
  | b :: bs => if c a b < 0 then a :: b :: bs else b :: insertC c a bs

def sortC (c : SRec → SRec → Int) (l : List SRec) : List SRec :=
  l.foldl (fun acc a => insertC c a acc) []

/-- `(node.id, level)` for every node, in the traversal order of
`configureInitialExpansion`. -/
def nodeDepths : TForest → Nat → List (Nat × Nat)
  | .nil, _ => []
  | .cons (.mk i cs) ts, lv => ((i, lv) :: nodeDepths cs (lv + 1)) ++ nodeDepths ts lv

/-- The recursive walk of `configureInitialExpansion`: set the policy value
for the node, then recurse into nonempty children lists. -/
def cfgForest (pol : Nat → Bool) : TForest → Nat → List (Nat × Bool)
  | .nil, _ => []
  | .cons (.mk i cs) ts, lv =>
      ((i, pol lv) :: (if cs.length > 0 then cfgForest pol cs (lv + 1) else []))
        ++ cfgForest pol ts lv

/-- HTMLOrgChart policy (line 134): `initiallyExpanded || level <
initialVisibleLevels`. -/
def cfgHTML (ie : Bool) (ivl : Nat) (f : TForest) : List (Nat × Bool) :=
  cfgForest (fun lv => ie || decide (lv < ivl)) f 0

/-- SimpleOrgChart policy (line 172): `initiallyExpanded && level <
initialVisibleLevels`. -/
def cfgSimple (ie : Bool) (ivl : Nat) (f : TForest) : List (Nat × Bool) :=
  cfgForest (fun lv => ie && decide (lv < ivl)) f 0

/-- One wheel-zoom step of HTMLOrgChart (lines 739-766) on the state
`(scale, translateX, translateY)`: `delta = ±0.1`, the new scale is
clamped to `[0.1, 3]`, and the translation is recomputed so that the chart
point under the mouse stays under the mouse. -/
def wheelStep (scale tx ty : ℚ) (zoomOut : Bool) (mx my : ℚ) : ℚ × ℚ × ℚ :=
  let delta : ℚ := if zoomOut then -(1/10) else 1/10
  let mouseChartX := (mx - tx) / scale
  let mouseChartY := (my - ty) / scale
  let newScale := max (1/10) (min 3 (scale + delta))
  (newScale, mx - mouseChartX * newScale, my - mouseChartY * newScale)

/-- SimpleOrgChart `setZoom` (lines 859-882) on `(currentScale,
translationX, translationY)` with container size `cw × ch`: the scale is
set to the argument unclamped, the translation keeps the viewBox center. -/
def setZoom (cw ch : ℚ) (st : ℚ × ℚ × ℚ) (newZoom : ℚ) : ℚ × ℚ × ℚ :=
  let oldW := cw / st.1
  let oldH := ch / st.1
  let cX := -st.2.1 / st.1 + oldW / 2
  let cY := -st.2.2 / st.1 + oldH / 2
  let newW := cw / newZoom
  let newH := ch / newZoom
  (newZoom, -(cX - newW / 2) * newZoom, -(cY - newH / 2) * newZoom)

/-- SimpleOrgChart `adjustZoom` (lines 850-853): clamp `currentScale +
delta` to `[0.5, 3]` and hand it to `setZoom`. -/
def adjustZoom (cw ch : ℚ) (st : ℚ × ℚ × ℚ) (delta : ℚ) : ℚ × ℚ × ℚ :=
  setZoom cw ch st (max (1/2) (min 3 (st.1 + delta)))

/-- Two siblings with the same sort key and different ids. -/
def tieA : SRec := ⟨1, "ana"⟩

def tieB : SRec := ⟨2, "ana"⟩

theorem findNode_setLevel (m : NodeMap) (k : JsVal) (lv : Nat) (k' : JsVal) :
    findNode (setLevel m k lv) k' =
      (findNode m k').map (fun v => if k' = k then { v with level := lv } else v) := by
  induction m with
  | nil => rfl
  | cons e rest ih =>
      obtain ⟨k1, v⟩ := e
      simp only [setLevel]
      by_cases h1 : k1 = k
      · rw [if_pos h1]
        subst h1
        by_cases h2 : k' = k1
        · subst h2
          simp [findNode, ih]
        · simp [findNode, h2, ih]
      · rw [if_neg h1]
        by_cases h2 : k' = k1
        · subst h2
          simp [findNode, h1, ih]
        · simp [findNode, h2, ih]

theorem findNode_pushChild (m : NodeMap) (k : JsVal) (c : JsVal) (k' : JsVal) :
    findNode (pushChild m k c) k' =
      (findNode m k').map
        (fun v => if k' = k then { v with children := v.children ++ [c] } else v) := by
  induction m with
  | nil => rfl
  | cons e rest ih =>
      obtain ⟨k1, v⟩ := e
      simp only [pushChild]
      by_cases h1 : k1 = k
      · rw [if_pos h1]
        subst h1
        by_cases h2 : k' = k1
        · subst h2
          simp [findNode, ih]
        · simp [findNode, h2, ih]
      · rw [if_neg h1]
        by_cases h2 : k' = k1
        · subst h2
          simp [findNode, h1, ih]
        · simp [findNode, h2, ih]

theorem keysOf_setLevel (m : NodeMap) (k : JsVal) (lv : Nat) :
    keysOf (setLevel m k lv) = keysOf m := by
  induction m with
  | nil => rfl
  | cons e rest ih =>
      obtain ⟨k1, v⟩ := e
      by_cases h : k1 = k <;> simp [setLevel, keysOf, h] at ih ⊢ <;> exact ih

theorem keysOf_pushChild (m : NodeMap) (k : JsVal) (c : JsVal) :
    keysOf (pushChild m k c) = keysOf m := by
  induction m with
  | nil => rfl
  | cons e rest ih =>
      obtain ⟨k1, v⟩ := e
      by_cases h : k1 = k <;> simp [pushChild, keysOf, h] at ih ⊢ <;> exact ih

theorem childCount_setLevel (m : NodeMap) (k : JsVal) (lv : Nat) (y : JsVal) :
    childCount (setLevel m k lv) y = childCount m y := by
  induction m with
  | nil => rfl
  | cons e rest ih =>
      obtain ⟨k1, v⟩ := e
      by_cases h : k1 = k <;> simp [setLevel, childCount, h] at ih ⊢ <;> omega

theorem hasNode_iff_mem_keys (m : NodeMap) (k : JsVal) :
    hasNode m k = true ↔ k ∈ keysOf m := by
  induction m with
  | nil => simp [hasNode, findNode, keysOf]
  | cons e rest ih =>
      by_cases h : k = e.1 <;>
        simp [hasNode, findNode, keysOf, h, Option.isSome] at ih ⊢
      · exact ih

theorem pushChild_of_not_mem (m : NodeMap) (k : JsVal) (c : JsVal)
    (h : k ∉ keysOf m) : pushChild m k c = m := by
  induction m with
  | nil => rfl
  | cons e rest ih =>
      obtain ⟨k1, v⟩ := e
      simp only [keysOf, List.map_cons, List.mem_cons] at h
      push_neg at h
      have : k1 ≠ k := fun hh => h.1 hh.symm
      simp [pushChild, this, ih (by simpa [keysOf] using h.2)]

/-- Pushing a child onto an existing key with duplicate-free keys adds
exactly one occurrence of `c` to the total child count. -/
theorem childCount_pushChild (m : NodeMap) (k : JsVal) (c : JsVal) (y : JsVal)
    (hnd : (keysOf m).Nodup) (hk : hasNode m k = true) :
    childCount (pushChild m k c) y = childCount m y + if y = c then 1 else 0 := by
  induction m with
  | nil => simp [hasNode, findNode] at hk
  | cons e rest ih =>
      obtain ⟨k1, v⟩ := e
      simp only [keysOf, List.map_cons, List.nodup_cons] at hnd
      by_cases h : k1 = k
      · subst h
        have hrest : pushChild rest k1 c = rest :=
          pushChild_of_not_mem rest k1 c (by simpa [keysOf] using hnd.1)
        simp [pushChild, childCount, hrest, List.count_append]
        by_cases hc : y = c <;> (simp [hc, List.count_singleton]; try omega)
      · have hk' : hasNode rest k = true := by
          have : ¬ k = k1 := fun hh => h hh.symm
          simpa [hasNode, findNode, this] using hk
        have := ih (by simpa [keysOf] using hnd.2) hk'
        simp [pushChild, childCount, h] at this ⊢
        omega

theorem mem_of_findNode {m : NodeMap} {x : JsVal} {v : PNode}
    (h : findNode m x = some v) : (x, v) ∈ m := by
  induction m with
  | nil => simp [findNode] at h
  | cons e rest ih =>
      obtain ⟨k1, v1⟩ := e
      by_cases hx : x = k1
      · subst hx
        simp [findNode] at h
        simp [h]
      · simp [findNode, hx] at h
        exact List.mem_cons_of_mem _ (ih h)

theorem childCount_ge_of_find {m : NodeMap} {x : JsVal} {v : PNode} (y : JsVal)
    (h : findNode m x = some v) : v.children.count y ≤ childCount m y := by
  have hmem : v.children.count y ∈ m.map (fun e => e.2.children.count y) :=
    List.mem_map_of_mem (fun e => e.2.children.count y) (mem_of_findNode h)
  exact List.single_le_sum (fun b _ => Nat.zero_le b) _ hmem

/-- Two entries under distinct keys contribute separately to the total
child count. -/
theorem childCount_ge_two_of_find {m : NodeMap} {x x' : JsVal} {v v' : PNode} (y : JsVal)
    (hxx : x ≠ x') (h : findNode m x = some v) (h' : findNode m x' = some v') :
    v.children.count y + v'.children.count y ≤ childCount m y := by
  obtain ⟨s, t, rfl⟩ := List.mem_iff_append.mp (mem_of_findNode h)
  have hm' := mem_of_findNode h'
  have hne : (x', v') ≠ (x, v) := fun hh => hxx (congrArg Prod.fst hh).symm
  have hst : (x', v') ∈ s ++ t := by
    rcases List.mem_append.mp hm' with hs | ht
    · exact List.mem_append.mpr (Or.inl hs)
    · rcases List.mem_cons.mp ht with he | ht'
      · exact absurd he hne
      · exact List.mem_append.mpr (Or.inr ht')
  have hv' : v'.children.count y ≤ childCount (s ++ t) y := by
    have hmem : v'.children.count y ∈ (s ++ t).map (fun e => e.2.children.count y) :=
      List.mem_map_of_mem (fun e => e.2.children.count y) hst
    exact List.single_le_sum (fun b _ => Nat.zero_le b) _ hmem
  have hsplit : childCount (s ++ ((x, v) :: t)) y
      = childCount (s ++ t) y + v.children.count y := by
    simp [childCount, List.map_append, List.sum_append]
    omega
  omega

theorem resolvedParent_spec {m : NodeMap} {r : Record} {p : JsVal}
    (h : resolvedParent m r = some p) :
    r.pid = some p ∧ p.truthy = true ∧ hasNode m p = true := by
  unfold resolvedParent at h
  cases hpid : r.pid with
  | none => simp [hpid] at h
  | some q =>
      simp only [hpid] at h
      by_cases hc : (q.truthy && hasNode m q) = true
      · rw [if_pos hc] at h
        cases h
        simp only [Bool.and_eq_true] at hc
        exact ⟨rfl, hc.1, hc.2⟩
      · rw [if_neg hc] at h
        exact absurd h (by simp)

theorem keysOf_buildStep (st : BuildState) (r : Record) :
    keysOf (buildStep st r).map = keysOf st.map := by
  unfold buildStep
  cases resolvedParent st.map r with
  | none => simp [keysOf_setLevel]
  | some p => simp [keysOf_pushChild, keysOf_setLevel]

theorem keysOf_foldl (todo : List Record) (st : BuildState) :
    keysOf (todo.foldl buildStep st).map = keysOf st.map := by
  induction todo generalizing st with
  | nil => rfl
  | cons r rest ih => simp [List.foldl_cons, ih, keysOf_buildStep]

theorem hasNode_eq_of_keysOf {m m' : NodeMap} (h : keysOf m' = keysOf m) (k : JsVal) :
    hasNode m' k = hasNode m k := by
  by_cases hk : hasNode m k = true
  · rw [hk]
    exact (hasNode_iff_mem_keys m' k).mpr (h ▸ (hasNode_iff_mem_keys m k).mp hk)
  · have : ¬ hasNode m' k = true := fun hh =>
      hk ((hasNode_iff_mem_keys m k).mpr (h ▸ (hasNode_iff_mem_keys m' k).mp hh))
    simp only [Bool.not_eq_true] at hk this
    rw [hk, this]

/-- Each second-pass step hands exactly one new ownership (of the record
just processed) to either a parent's children array or the root list. -/
theorem ownCount_buildStep (st : BuildState) (r : Record)
    (hnd : (keysOf st.map).Nodup) (_hr : r.id ∈ keysOf st.map) (y : JsVal) :
    ownCount (buildStep st r) y = ownCount st y + if y = r.id then 1 else 0 := by
  unfold buildStep ownCount
  cases hrp : resolvedParent st.map r with
  | none =>
      simp only [childCount_setLevel, List.count_append]
      by_cases hy : y = r.id
      · subst hy
        simp [List.count_cons]
        omega
      · simp [List.count_cons, hy]
  | some p =>
      obtain ⟨-, -, hp⟩ := resolvedParent_spec hrp
      have hp' : hasNode (setLevel st.map r.id
          ((((findNode st.map p).map PNode.level).getD 0) + 1)) p = true := by
        rw [hasNode_eq_of_keysOf (keysOf_setLevel ..)]
        exact hp
      rw [show childCount (pushChild (setLevel st.map r.id
            ((((findNode st.map p).map PNode.level).getD 0) + 1)) p r.id) y
          = childCount (setLevel st.map r.id
            ((((findNode st.map p).map PNode.level).getD 0) + 1)) y
            + if y = r.id then 1 else 0 from
        childCount_pushChild _ p r.id y (by rw [keysOf_setLevel]; exact hnd) hp']
      simp [childCount_setLevel]
      omega

theorem ownCount_foldl (todo : List Record) (st : BuildState)
    (hnd : (keysOf st.map).Nodup)
    (hin : ∀ r ∈ todo, r.id ∈ keysOf st.map) (y : JsVal) :
    ownCount (todo.foldl buildStep st) y
      = ownCount st y + (todo.map Record.id).count y := by
  induction todo generalizing st with
  | nil => simp
  | cons r rest ih =>
      have h1 := ownCount_buildStep st r hnd (hin r (by simp)) y
      have hk : keysOf (buildStep st r).map = keysOf st.map := keysOf_buildStep st r
      have h2 := ih (buildStep st r) (hk ▸ hnd)
        (fun r' hr' => hk ▸ hin r' (List.mem_cons_of_mem _ hr'))
      simp only [List.foldl_cons, h2, h1, List.map_cons, List.count_cons, beq_iff_eq]
      by_cases hy : y = r.id
      · subst hy
        simp
        omega
      · simp [hy]
        exact fun hh => hy hh.symm

theorem dedupGo_ids_nodup (l : List Record) (seen : List JsVal) :
    ((dedupGo seen l).map Record.id).Nodup
      ∧ ∀ a ∈ (dedupGo seen l).map Record.id, a ∉ seen := by
  induction l generalizing seen with
  | nil => simp [dedupGo]
  | cons r rest ih =>
      by_cases h : r.id ∈ seen
      · simpa [dedupGo, h] using ih seen
      · have := ih (r.id :: seen)
        simp only [dedupGo, if_neg h, List.map_cons, List.nodup_cons]
        refine ⟨⟨fun hmem => ?_, this.1⟩, fun a ha => ?_⟩
        · exact (this.2 r.id hmem) (by simp)
        · rcases List.mem_cons.mp ha with rfl | ha'
          · exact h
          · intro hseen
            exact (this.2 a ha') (List.mem_cons_of_mem _ hseen)

theorem dedup_ids_nodup (l : List Record) : ((dedupById l).map Record.id).Nodup :=
  (dedupGo_ids_nodup l []).1

theorem keysOf_initialMap (l : List Record) :
    keysOf (initialMap l) = l.map Record.id := by
  simp [keysOf, initialMap, List.map_map]

theorem childCount_initialMap (l : List Record) (y : JsVal) :
    childCount (initialMap l) y = 0 := by
  induction l with
  | nil => rfl
  | cons r rest ih => simpa [initialMap, childCount] using ih

theorem keysOf_processData (l : List Record) :
    keysOf (processData l).map = (dedupById l).map Record.id := by
  unfold processData
  rw [keysOf_foldl, keysOf_initialMap]

/-- Every id is owned at most once after the build: the total number of
occurrences in children arrays plus root-list occurrences is at most 1. -/
theorem ownCount_processData_le_one (l : List Record) (y : JsVal) :
    ownCount (processData l) y ≤ 1 := by
  unfold processData
  have hkeys : keysOf (initialMap (dedupById l)) = (dedupById l).map Record.id :=
    keysOf_initialMap _
  have h := ownCount_foldl (dedupById l) ⟨initialMap (dedupById l), []⟩
    (by rw [hkeys]; exact dedup_ids_nodup l)
    (by intro r hr; rw [hkeys]; exact List.mem_map_of_mem Record.id hr) y
  rw [h]
  have : ownCount ⟨initialMap (dedupById l), []⟩ y = 0 := by
    simp [ownCount, childCount_initialMap]
  rw [this]
  simpa using List.nodup_iff_count_le_one.mp (dedup_ids_nodup l) y

theorem childRel_iff {m : NodeMap} {x y : JsVal} :
    childRel m x y ↔ ∃ v, findNode m x = some v ∧ y ∈ v.children := by
  unfold childRel
  cases h : findNode m x <;> simp

theorem childRel_unique {l : List Record} {x x' y : JsVal}
    (h : childRel (processData l).map x y) (h' : childRel (processData l).map x' y) :
    x = x' := by
  by_contra hne
  obtain ⟨v, hv, hyv⟩ := childRel_iff.mp h
  obtain ⟨v', hv', hyv'⟩ := childRel_iff.mp h'
  have h2 := childCount_ge_two_of_find y hne hv hv'
  have hle := ownCount_processData_le_one l y
  have c1 : 0 < v.children.count y := List.count_pos_iff.mpr hyv
  have c2 : 0 < v'.children.count y := List.count_pos_iff.mpr hyv'
  unfold ownCount at hle
  omega

theorem root_no_parent {l : List Record} {x y : JsVal}
    (hy : y ∈ (processData l).roots) : ¬ childRel (processData l).map x y := by
  intro h
  obtain ⟨v, hv, hyv⟩ := childRel_iff.mp h
  have h1 := childCount_ge_of_find y hv
  have c1 : 0 < v.children.count y := List.count_pos_iff.mpr hyv
  have hr : 0 < (processData l).roots.count y := List.count_pos_iff.mpr hy
  have hle := ownCount_processData_le_one l y
  unfold ownCount at hle
  omega

theorem levelOf_pushChild (m : NodeMap) (k c k' : JsVal) :
    levelOf (pushChild m k c) k' = levelOf m k' := by
  unfold levelOf
  rw [findNode_pushChild]
  cases findNode m k' with
  | none => rfl
  | some v => by_cases h : k' = k <;> simp [h]

theorem levelOf_setLevel_ne (m : NodeMap) (k : JsVal) (lv : Nat) (k' : JsVal)
    (h : k' ≠ k) : levelOf (setLevel m k lv) k' = levelOf m k' := by
  unfold levelOf
  rw [findNode_setLevel]
  cases findNode m k' with
  | none => rfl
  | some v => simp [h]

theorem levelOf_setLevel_self (m : NodeMap) (k : JsVal) (lv : Nat)
    (hk : hasNode m k = true) : levelOf (setLevel m k lv) k = lv := by
  unfold levelOf
  rw [findNode_setLevel]
  unfold hasNode at hk
  cases h : findNode m k with
  | none => rw [h] at hk; simp at hk
  | some v => simp

theorem childRel_setLevel_iff (m : NodeMap) (k : JsVal) (lv : Nat) (x y : JsVal) :
    childRel (setLevel m k lv) x y ↔ childRel m x y := by
  unfold childRel
  rw [findNode_setLevel]
  cases findNode m x with
  | none => simp
  | some v => by_cases h : x = k <;> simp [h]

theorem childRel_pushChild_iff (m : NodeMap) (p c x y : JsVal) :
    childRel (pushChild m p c) x y ↔
      childRel m x y ∨ (x = p ∧ y = c ∧ hasNode m p = true) := by
  unfold childRel hasNode
  rw [findNode_pushChild]
  cases h : findNode m x with
  | none =>
      by_cases hx : x = p
      · subst hx
        simp [h]
      · simp [hx]
  | some v =>
      by_cases hx : x = p
      · subst hx
        simp [h, List.mem_append]
        try tauto
      · simp [h, hx]

/-- One step preserves the level invariant, provided the resolved parent (if
any) was already processed and the current id was not. -/
theorem levelInv_buildStep (st : BuildState) (r : Record) (seen : List JsVal)
    (hall : ∀ p, resolvedParent st.map r = some p → p ∈ seen)
    (hrid : r.id ∉ seen)
    (hkey : r.id ∈ keysOf st.map)
    (hinv : LevelInv st seen) : LevelInv (buildStep st r) (r.id :: seen) := by
  intro x y hxy
  unfold buildStep at hxy ⊢
  cases hrp : resolvedParent st.map r with
  | none =>
      rw [hrp] at hxy
      simp only at hxy
      have hxy' := (childRel_setLevel_iff ..).mp hxy
      obtain ⟨hlv, hx, hy⟩ := hinv x y hxy'
      have hxr : x ≠ r.id := fun hh => hrid (hh ▸ hx)
      have hyr : y ≠ r.id := fun hh => hrid (hh ▸ hy)
      show levelOf (setLevel st.map r.id 0) y
          = levelOf (setLevel st.map r.id 0) x + 1 ∧ x ∈ r.id :: seen ∧ y ∈ r.id :: seen
      rw [levelOf_setLevel_ne _ _ _ _ hyr, levelOf_setLevel_ne _ _ _ _ hxr]
      exact ⟨hlv, List.mem_cons_of_mem _ hx, List.mem_cons_of_mem _ hy⟩
  | some p =>
      have hp := hall p hrp
      have hpr : p ≠ r.id := fun hh => hrid (hh ▸ hp)
      rw [hrp] at hxy
      simp only at hxy
      show levelOf (pushChild (setLevel st.map r.id
            ((((findNode st.map p).map PNode.level).getD 0) + 1)) p r.id) y
          = levelOf (pushChild (setLevel st.map r.id
            ((((findNode st.map p).map PNode.level).getD 0) + 1)) p r.id) x + 1
          ∧ x ∈ r.id :: seen ∧ y ∈ r.id :: seen
      have hlevels : ∀ k, k ≠ r.id →
          levelOf (pushChild (setLevel st.map r.id
            ((((findNode st.map p).map PNode.level).getD 0) + 1)) p r.id) k
          = levelOf st.map k := by
        intro k hk
        rw [levelOf_pushChild, levelOf_setLevel_ne _ _ _ _ hk]
      have hrlevel :
          levelOf (pushChild (setLevel st.map r.id
            ((((findNode st.map p).map PNode.level).getD 0) + 1)) p r.id) r.id
          = levelOf st.map p + 1 := by
        rw [levelOf_pushChild,
          levelOf_setLevel_self _ _ _ ((hasNode_iff_mem_keys ..).mpr hkey)]
        rfl
      rcases (childRel_pushChild_iff ..).mp hxy with hold | hnew
      · have hold' := (childRel_setLevel_iff ..).mp hold
        obtain ⟨hlv, hx, hy⟩ := hinv x y hold'
        have hxr : x ≠ r.id := fun hh => hrid (hh ▸ hx)
        have hyr : y ≠ r.id := fun hh => hrid (hh ▸ hy)
        rw [hlevels y hyr, hlevels x hxr]
        exact ⟨hlv, List.mem_cons_of_mem _ hx, List.mem_cons_of_mem _ hy⟩
      · obtain ⟨rfl, rfl, -⟩ := hnew
        rw [hrlevel, hlevels x hpr]
        exact ⟨rfl, List.mem_cons_of_mem _ hp, List.mem_cons_self _ _⟩

/-- The fold preserves the level invariant when parents precede children. -/
theorem levelInv_foldl (todo : List Record) (st : BuildState) (seen : List JsVal)
    (hkeys : ∀ r ∈ todo, r.id ∈ keysOf st.map)
    (hpf : parentsFirst (keysOf st.map) seen todo = true)
    (hnodup : (todo.map Record.id).Nodup)
    (hnotseen : ∀ r ∈ todo, r.id ∉ seen)
    (hinv : LevelInv st seen) :
    ∀ x y, childRel (todo.foldl buildStep st).map x y →
      levelOf (todo.foldl buildStep st).map y
        = levelOf (todo.foldl buildStep st).map x + 1 := by
  induction todo generalizing st seen with
  | nil =>
      intro x y h
      exact (hinv x y h).1
  | cons r rest ih =>
      simp only [parentsFirst, Bool.and_eq_true] at hpf
      simp only [List.foldl_cons]
      have hknd := keysOf_buildStep st r
      have hall : ∀ p, resolvedParent st.map r = some p → p ∈ seen := by
        intro p hrp
        obtain ⟨hpid, htr, hhas⟩ := resolvedParent_spec hrp
        have hcont : (keysOf st.map).contains p = true := by
          have hpmem : p ∈ keysOf st.map := (hasNode_iff_mem_keys ..).mp hhas
          simpa [List.contains] using hpmem
        have := hpf.1
        rw [hpid] at this
        simp only [hcont, Bool.and_true, htr, Bool.not_true, Bool.false_or] at this
        simpa [List.contains] using this
      have hstep := levelInv_buildStep st r seen hall (hnotseen r (by simp))
        (hkeys r (by simp)) hinv
      apply ih (buildStep st r) (r.id :: seen)
      · intro r' hr'
        rw [hknd]
        exact hkeys r' (List.mem_cons_of_mem _ hr')
      · rw [hknd]
        exact hpf.2
      · exact (List.nodup_cons.mp (by simpa using hnodup)).2
      · intro r' hr' hmem
        rcases List.mem_cons.mp hmem with heq | hseen
        · exact (List.nodup_cons.mp (by simpa using hnodup)).1
            (heq ▸ List.mem_map_of_mem Record.id hr')
        · exact hnotseen r' (List.mem_cons_of_mem _ hr') hseen
      · exact hstep

theorem findNode_of_mem_nodup {m : NodeMap} {k : JsVal} {v : PNode}
    (hnd : (keysOf m).Nodup) (hm : (k, v) ∈ m) : findNode m k = some v := by
  induction m with
  | nil => simp at hm
  | cons e rest ih =>
      obtain ⟨k1, v1⟩ := e
      simp only [keysOf, List.map_cons, List.nodup_cons] at hnd
      rcases List.mem_cons.mp hm with he | hm'
      · cases he
        simp [findNode]
      · have hne : k ≠ k1 := by
          intro hh
          subst hh
          exact hnd.1 (List.mem_map_of_mem Prod.fst hm')
        simp only [findNode, if_neg hne]
        exact ih (by simpa [keysOf] using hnd.2) hm'

theorem exists_parent_of_childCount_pos {m : NodeMap} {y : JsVal}
    (h : 0 < childCount m y) : ∃ e ∈ m, 0 < e.2.children.count y := by
  by_contra hc
  push_neg at hc
  have hz : ∀ n ∈ m.map (fun e => e.2.children.count y), n = 0 := by
    intro n hn
    obtain ⟨e, he, rfl⟩ := List.mem_map.mp hn
    have := hc e he
    omega
  have := List.sum_eq_zero hz
  unfold childCount at h
  omega

theorem findNode_initialMap (l : List Record) (k : JsVal) :
    findNode (initialMap l) k = none ∨ findNode (initialMap l) k = some ⟨0, []⟩ := by
  induction l with
  | nil => left; rfl
  | cons r rest ih =>
      by_cases h : k = r.id
      · right
        simp [initialMap, findNode, h]
      · simpa [initialMap, findNode, h] using ih

theorem childRel_initialMap (l : List Record) (x y : JsVal) :
    ¬ childRel (initialMap l) x y := by
  intro h
  obtain ⟨v, hv, hyv⟩ := childRel_iff.mp h
  rcases findNode_initialMap l x with hn | hn <;> rw [hn] at hv
  · exact absurd hv (by simp)
  · cases hv
    simp at hyv

theorem buildStep_of_resolved_none {st : BuildState} {r : Record}
    (h : resolvedParent st.map r = none) :
    buildStep st r = ⟨setLevel st.map r.id 0, st.roots ++ [r.id]⟩ := by
  unfold buildStep
  rw [h]

theorem roots_mem_buildStep (st : BuildState) (r : Record) (y : JsVal)
    (hy : y ∈ st.roots) : y ∈ (buildStep st r).roots := by
  unfold buildStep
  cases resolvedParent st.map r <;> simp [hy]

theorem roots_mem_foldl (todo : List Record) (st : BuildState) (y : JsVal)
    (hy : y ∈ st.roots) : y ∈ (todo.foldl buildStep st).roots := by
  induction todo generalizing st with
  | nil => exact hy
  | cons r rest ih => exact ih _ (roots_mem_buildStep st r y hy)

theorem levelOf_buildStep_ne (st : BuildState) (r : Record) (k : JsVal)
    (hk : k ≠ r.id) : levelOf (buildStep st r).map k = levelOf st.map k := by
  unfold buildStep
  cases resolvedParent st.map r with
  | none =>
      show levelOf (setLevel st.map r.id 0) k = levelOf st.map k
      exact levelOf_setLevel_ne _ _ _ _ hk
  | some p =>
      show levelOf (pushChild (setLevel st.map r.id
        ((((findNode st.map p).map PNode.level).getD 0) + 1)) p r.id) k = levelOf st.map k
      rw [levelOf_pushChild, levelOf_setLevel_ne _ _ _ _ hk]

theorem levelOf_foldl_ne (todo : List Record) (st : BuildState) (k : JsVal)
    (hk : ∀ r ∈ todo, k ≠ r.id) :
    levelOf (todo.foldl buildStep st).map k = levelOf st.map k := by
  induction todo generalizing st with
  | nil => rfl
  | cons r rest ih =>
      simp only [List.foldl_cons]
      rw [ih _ (fun r' h => hk r' (List.mem_cons_of_mem _ h)),
        levelOf_buildStep_ne st r k (hk r (by simp))]

/-- C4 counterexample: with a child record occurring before its parent
record in input order, node 3 ends as a child of node 2 but both end with
level 1, so `level = parent.level + 1` fails after `processData`. -/
theorem processData_out_of_order_level_cex :
    childRel (processData outOfOrderRecords).map (.num 2) (.num 3)
      ∧ levelOf (processData outOfOrderRecords).map (.num 3) = 1
      ∧ levelOf (processData outOfOrderRecords).map (.num 2) = 1
      ∧ ¬ (levelOf (processData outOfOrderRecords).map (.num 3)
            = levelOf (processData outOfOrderRecords).map (.num 2) + 1) := by
  decide

/-- C4 (amended): after `processData` every non-root node of the map has
exactly one parent under `childRel`; and provided every record whose
parent reference resolves occurs after its parent record (the decidable
`parentsFirst` order), every edge satisfies `level = parent.level + 1`.
Without that ordering hypothesis the level equation fails (see the
counterexample). -/
theorem processData_level_invariant (l : List Record)
    (hpf : parentsFirst ((dedupById l).map Record.id) [] (dedupById l) = true) :
    (∀ y, y ∈ keysOf (processData l).map → y ∉ (processData l).roots →
        ∃! x, childRel (processData l).map x y)
      ∧ ∀ x y, childRel (processData l).map x y →
          levelOf (processData l).map y = levelOf (processData l).map x + 1 := by
  constructor
  · intro y hy hroot
    have hcnt : ownCount (processData l) y = 1 := by
      have hle := ownCount_processData_le_one l y
      have hpos : 0 < ((dedupById l).map Record.id).count y := by
        rw [keysOf_processData] at hy
        exact List.count_pos_iff.mpr hy
      have heq : ownCount (processData l) y
          = ((dedupById l).map Record.id).count y := by
        unfold processData
        rw [ownCount_foldl _ _
          (by rw [keysOf_initialMap]; exact dedup_ids_nodup l)
          (by intro r hr; rw [keysOf_initialMap]; exact List.mem_map_of_mem Record.id hr)]
        simp [ownCount, childCount_initialMap]
      omega
    have hrz : (processData l).roots.count y = 0 := List.count_eq_zero.mpr hroot
    have hcc : childCount (processData l).map y = 1 := by
      unfold ownCount at hcnt
      omega
    obtain ⟨e, he, hepos⟩ := exists_parent_of_childCount_pos
      (show 0 < childCount (processData l).map y by omega)
    have hnd : (keysOf (processData l).map).Nodup := by
      rw [keysOf_processData]
      exact dedup_ids_nodup l
    have hfind : findNode (processData l).map e.1 = some e.2 :=
      findNode_of_mem_nodup hnd (by exact he)
    refine ⟨e.1, ?_, ?_⟩
    · exact childRel_iff.mpr ⟨e.2, hfind, List.count_pos_iff.mp hepos⟩
    · intro x hx
      exact childRel_unique hx (childRel_iff.mpr ⟨e.2, hfind, List.count_pos_iff.mp hepos⟩)
  · unfold processData
    apply levelInv_foldl (dedupById l) ⟨initialMap (dedupById l), []⟩ []
    · intro r hr
      rw [keysOf_initialMap]
      exact List.mem_map_of_mem Record.id hr
    · rw [keysOf_initialMap]
      exact hpf
    · exact dedup_ids_nodup l
    · simp
    · intro x y h
      exact absurd h (childRel_initialMap _ x y)

/-- Witness for the amended C4 theorem at a concrete two-record input. -/
theorem processData_level_invariant_witness :
    levelOf (processData demoRecords).map (.num 2)
      = levelOf (processData demoRecords).map (.num 1) + 1 :=
  (processData_level_invariant demoRecords (by decide)).2 _ _ (by decide)

/-- C5 counterexample: with two records naming each other as parent, the
children relation built by `processData` makes node 1 its own strict
descendant. -/
theorem processData_mutual_parents_cycle :
    Relation.TransGen (childRel (processData mutualParentRecords).map)
      (.num 1) (.num 1) := by
  have h12 : childRel (processData mutualParentRecords).map (.num 1) (.num 2) := by
    decide
  have h21 : childRel (processData mutualParentRecords).map (.num 2) (.num 1) := by
    decide
  exact Relation.TransGen.tail (Relation.TransGen.single h12) h21

/-- C5 (amended): every node reachable from a member of the root list is
on no cycle of the children relation; cyclic families (mutual or self
parents) are exactly the parts never reachable from `rootNodes`. -/
theorem processData_reachable_acyclic (l : List Record) (rt : JsVal)
    (hrt : rt ∈ (processData l).roots) (v : JsVal)
    (hreach : Relation.ReflTransGen (childRel (processData l).map) rt v) :
    ¬ Relation.TransGen (childRel (processData l).map) v v := by
  induction hreach with
  | refl =>
      intro hcyc
      obtain ⟨u, -, hu⟩ := Relation.TransGen.tail'_iff.mp hcyc
      exact root_no_parent hrt hu
  | @tail b c hab hbc ih =>
      intro hcyc
      obtain ⟨u, hcu, huc⟩ := Relation.TransGen.tail'_iff.mp hcyc
      have hub : u = b := childRel_unique huc hbc
      subst hub
      exact ih (Relation.TransGen.head' hbc hcu)

/-- Witness for the amended C5 theorem at a concrete input. -/
theorem processData_reachable_acyclic_witness :
    ¬ Relation.TransGen (childRel (processData demoRecords).map)
      (.num 2) (.num 2) :=
  processData_reachable_acyclic demoRecords (.num 1) (by decide) (.num 2)
    (Relation.ReflTransGen.single (by decide))

/-- C10: a record whose `pid` is falsy (absent, `null`, `0` or the empty
string) becomes a root at level 0 after `processData`, even when a record
whose id equals that pid exists: only truthy pids are looked up in the
node map. -/
theorem processData_falsy_pid_root (l : List Record) (r : Record)
    (hr : r ∈ dedupById l)
    (hfalsy : ∀ p, r.pid = some p → p.truthy = false) :
    r.id ∈ (processData l).roots ∧ levelOf (processData l).map r.id = 0 := by
  obtain ⟨s, t, hsplit⟩ := List.mem_iff_append.mp hr
  have hnd := dedup_ids_nodup l
  rw [hsplit] at hnd
  have hnott : ∀ r' ∈ t, r.id ≠ r'.id := by
    have h1 : ((r :: t).map Record.id).Nodup := by
      rw [List.map_append] at hnd
      exact hnd.of_append_right
    have h2 : r.id ∉ t.map Record.id := (List.nodup_cons.mp (by simpa using h1)).1
    intro r' hr' heq
    exact h2 (heq ▸ List.mem_map_of_mem Record.id hr')
  unfold processData
  rw [hsplit, List.foldl_append, List.foldl_cons]
  have hrp : resolvedParent
      (s.foldl buildStep ⟨initialMap (s ++ r :: t), []⟩).map r = none := by
    unfold resolvedParent
    cases hpid : r.pid with
    | none => rfl
    | some p => simp [hfalsy p hpid]
  have hkey : r.id ∈ keysOf (s.foldl buildStep ⟨initialMap (s ++ r :: t), []⟩).map := by
    rw [keysOf_foldl, keysOf_initialMap]
    simp
  rw [buildStep_of_resolved_none hrp]
  constructor
  · exact roots_mem_foldl t _ r.id (by simp)
  · rw [levelOf_foldl_ne t _ _ hnott]
    exact levelOf_setLevel_self _ _ _ ((hasNode_iff_mem_keys ..).mpr hkey)

/-- Witness for C10 at a concrete input: the pid `0` is falsy although a
record with id `0` exists. -/
theorem processData_falsy_pid_root_witness :
    JsVal.num 5 ∈ (processData falsyPidRecords).roots
      ∧ levelOf (processData falsyPidRecords).map (.num 5) = 0 :=
  processData_falsy_pid_root falsyPidRecords ⟨.num 5, some (.num 0), "e"⟩
    (by decide) (by decide)

theorem posFind_posSet_self (p : PosMap) (k : Nat) (v : ℚ × Nat) :
    posFind (posSet p k v) k = some v := by
  simp [posSet, posFind]

theorem posFind_posSet_ne (p : PosMap) (k k' : Nat) (v : ℚ × Nat) (h : k' ≠ k) :
    posFind (posSet p k v) k' = posFind p k' := by
  simp [posSet, posFind, h]

theorem posFind_posAddX (p : PosMap) (k : Nat) (d : ℚ) (k' : Nat) :
    posFind (posAddX p k d) k' =
      if k' = k then (posFind p k').map (fun v => (v.1 + d, v.2)) else posFind p k' := by
  induction p with
  | nil => simp [posAddX, posFind]
  | cons e rest ih =>
      obtain ⟨k1, x, lv⟩ := e
      simp only [posAddX]
      by_cases h1 : k1 = k
      · rw [if_pos h1]
        subst h1
        by_cases h2 : k' = k1
        · subst h2
          simp [posFind, ih]
        · simp [posFind, h2, ih]
      · rw [if_neg h1]
        by_cases h2 : k' = k1
        · subst h2
          simp [posFind, h1, ih]
        · simp [posFind, h2, ih]

theorem posFind_posAddX_ne (p : PosMap) (k : Nat) (d : ℚ) (k' : Nat) (h : k' ≠ k) :
    posFind (posAddX p k d) k' = posFind p k' := by
  rw [posFind_posAddX, if_neg h]

/-- Any position write of the collision phase preserves the set of ids that
have positions and their level fields. -/
theorem posLevel_posAddX (p : PosMap) (k : Nat) (d : ℚ) (k' : Nat) :
    posLevel (posAddX p k d) k' = posLevel p k' := by
  unfold posLevel
  rw [posFind_posAddX]
  by_cases h : k' = k
  · rw [if_pos h]
    cases posFind p k' <;> rfl
  · rw [if_neg h]

theorem ensureRow_getD (rows : List (List Tree)) (lvl i : Nat) :
    (ensureRow rows lvl).getD i [] = rows.getD i [] := by
  unfold ensureRow
  split
  · simp only [List.getD_eq_getElem?_getD]
    rcases Nat.lt_or_ge i rows.length with h | h
    · rw [List.getElem?_append_left h]
    · rw [List.getElem?_append_right h, List.getElem?_eq_none h]
      rw [List.getElem?_replicate]
      split <;> rfl
  · rfl

theorem ensureRow_length (rows : List (List Tree)) (lvl : Nat) :
    (ensureRow rows lvl).length = max rows.length (lvl + 1) := by
  unfold ensureRow
  split
  · simp
    omega
  · omega

theorem ensureRow_lt_length (rows : List (List Tree)) (lvl : Nat) :
    lvl < (ensureRow rows lvl).length := by
  rw [ensureRow_length]
  omega

theorem pushRow_getD_self (rows : List (List Tree)) (lvl : Nat) (t : Tree)
    (h : lvl < rows.length) :
    (pushRow rows lvl t).getD lvl [] = rows.getD lvl [] ++ [t] := by
  unfold pushRow
  simp only [List.getD_eq_getElem?_getD]
  rw [List.getElem?_set_self (by exact h)]
  simp

theorem pushRow_getD_ne (rows : List (List Tree)) (lvl : Nat) (t : Tree) (i : Nat)
    (h : i ≠ lvl) :
    (pushRow rows lvl t).getD i [] = rows.getD i [] := by
  unfold pushRow
  simp only [List.getD_eq_getElem?_getD]
  rw [List.getElem?_set_ne (fun hh => h hh.symm)]

theorem pushRow_length (rows : List (List Tree)) (lvl : Nat) (t : Tree) :
    (pushRow rows lvl t).length = rows.length := by
  simp [pushRow]

theorem pass2_rows (o : LayoutOpts) (endX : ℚ) (lvl : Nat) (vs : VForest) (i : Nat)
    (s : LState) : (pass2 o endX lvl vs i s).rows = s.rows := by
  induction vs, i, s using pass2.induct o endX lvl <;> simp_all [pass2]

theorem nodeIds_subset_ids (vs : VForest) : ∀ u ∈ vs.nodeIds, u ∈ vs.ids := by
  induction vs using VForest.nodeIds.induct with
  | case1 => simp [VForest.nodeIds]
  | case2 v vs ih =>
      obtain ⟨t, cs, w⟩ := v
      intro u hu
      rcases List.mem_cons.mp hu with rfl | hu'
      · simp [VForest.ids, VInfo.node]
      · simp only [VForest.ids, List.mem_cons, List.mem_append]
        exact Or.inr (Or.inr (ih u hu'))

/-- The second pass writes only the ids of the top entries. -/
theorem pass2_untouched (o : LayoutOpts) (endX : ℚ) (lvl : Nat) (vs : VForest) (i : Nat)
    (s : LState) (u : Nat) (hu : u ∉ vs.nodeIds) :
    posFind (pass2 o endX lvl vs i s).positions u = posFind s.positions u := by
  induction vs, i, s using pass2.induct o endX lvl with
  | case1 i s => rfl
  | case2 nd w vs i s x ih =>
      have h1 : u ∉ vs.nodeIds := by
        simp only [VForest.nodeIds, List.mem_cons] at hu
        exact fun hh => hu (Or.inr hh)
      have h2 : u ≠ nd.tid := by
        simp only [VForest.nodeIds, List.mem_cons, VInfo.node] at hu
        exact fun hh => hu (Or.inl hh)
      rw [pass2, ih h1]
      exact posFind_posSet_ne _ _ _ _ h2
  | case3 nd c cs' w vs i s xs x ih =>
      have h1 : u ∉ vs.nodeIds := by
        simp only [VForest.nodeIds, List.mem_cons] at hu
        exact fun hh => hu (Or.inr hh)
      have h2 : u ≠ nd.tid := by
        simp only [VForest.nodeIds, List.mem_cons, VInfo.node] at hu
        exact fun hh => hu (Or.inl hh)
      rw [pass2, ih h1]
      exact posFind_posSet_ne _ _ _ _ h2

theorem rowVis_zero_cons (v : VInfo) (vs : VForest) :
    rowVis 0 (.cons v vs) = v :: rowVis 0 vs := by
  simp [rowVis]

theorem rowVis_succ_cons (d : Nat) (v : VInfo) (vs : VForest) :
    rowVis (d + 1) (.cons v vs) = rowVis d v.vchildren ++ rowVis (d + 1) vs := by
  simp [rowVis]

theorem rowVis_nil (d : Nat) : rowVis d .nil = [] := by
  cases d <;> simp [rowVis]

theorem rowIds_subset_ids (vs : VForest) :
    ∀ d u, u ∈ rowIds d vs → u ∈ vs.ids := by
  induction vs using VForest.ids.induct with
  | case1 =>
      intro d u hu
      simp [rowIds, rowVis_nil] at hu
  | case2 t cs w vs ihc ihv =>
      intro d u hu
      simp only [VForest.ids, List.mem_cons, List.mem_append]
      cases d with
      | zero =>
          simp only [rowIds, rowVis_zero_cons, List.map_cons, List.mem_cons] at hu
          rcases hu with h | h
          · exact Or.inl (by simpa [VInfo.node] using h)
          · exact Or.inr (Or.inr (ihv 0 u h))
      | succ d =>
          simp only [rowIds, rowVis_succ_cons, List.map_append, List.mem_append] at hu
          rcases hu with h | h
          · exact Or.inr (Or.inl (by simpa [VInfo.vchildren] using ihc d u h))
          · exact Or.inr (Or.inr (ihv (d + 1) u h))

theorem nodeIds_eq_rowIds_zero (vs : VForest) : vs.nodeIds = rowIds 0 vs := by
  induction vs using VForest.nodeIds.induct with
  | case1 => simp [VForest.nodeIds, rowIds, rowVis_nil]
  | case2 v vs ih => simp [VForest.nodeIds, rowIds, rowVis_zero_cons, ih]

/-- With duplicate-free visible ids, each row is duplicate-free and an id
occurs in at most one row. -/
theorem rowIds_nodup_and_unique (vs : VForest) (h : vs.ids.Nodup) :
    (∀ d, (rowIds d vs).Nodup)
      ∧ ∀ d d' u, u ∈ rowIds d vs → u ∈ rowIds d' vs → d = d' := by
  induction vs using VForest.ids.induct with
  | case1 =>
      constructor
      · intro d
        simp [rowIds, rowVis_nil]
      · intro d d' u hu
        simp [rowIds, rowVis_nil] at hu
  | case2 t cs w vs ihc ihv =>
      simp only [VForest.ids, List.nodup_cons, List.mem_cons, List.mem_append] at h
      obtain ⟨hhead, happ⟩ := h
      have hdisj : ∀ u, u ∈ cs.ids → u ∈ vs.ids → False := by
        intro u h1 h2
        exact (List.disjoint_of_nodup_append happ) h1 h2
      have hcs : cs.ids.Nodup := happ.of_append_left
      have hvs : vs.ids.Nodup := happ.of_append_right
      obtain ⟨ihc1, ihc2⟩ := ihc hcs
      obtain ⟨ihv1, ihv2⟩ := ihv hvs
      have hvch : (VInfo.mk t cs w).vchildren = cs := rfl
      have hvnd : (VInfo.mk t cs w).node = t := rfl
      constructor
      · intro d
        cases d with
        | zero =>
            simp only [rowIds, rowVis_zero_cons, List.map_cons, List.nodup_cons, hvnd]
            refine ⟨fun hmem => ?_, ihv1 0⟩
            exact hhead (Or.inr (rowIds_subset_ids vs 0 t.tid hmem))
        | succ d =>
            simp only [rowIds, rowVis_succ_cons, List.map_append, hvch]
            rw [List.nodup_append]
            refine ⟨ihc1 d, ihv1 (d + 1), ?_⟩
            intro u h1 h2
            exact hdisj u (rowIds_subset_ids cs d u h1) (rowIds_subset_ids vs (d + 1) u h2)
      · intro d d' u hu hu'
        match d, d' with
        | 0, 0 => rfl
        | 0, e + 1 =>
            simp only [rowIds, rowVis_zero_cons, List.map_cons, List.mem_cons, hvnd] at hu
            simp only [rowIds, rowVis_succ_cons, List.map_append, List.mem_append, hvch] at hu'
            rcases hu with rfl | hu
            · rcases hu' with h | h
              · exact absurd (Or.inl (rowIds_subset_ids cs e t.tid h)) hhead
              · exact absurd (Or.inr (rowIds_subset_ids vs (e + 1) t.tid h)) hhead
            · rcases hu' with h | h
              · exact absurd (hdisj u (rowIds_subset_ids cs e u h)
                  (rowIds_subset_ids vs 0 u hu)) id
              · exact ihv2 0 (e + 1) u hu h
        | e + 1, 0 =>
            simp only [rowIds, rowVis_zero_cons, List.map_cons, List.mem_cons, hvnd] at hu'
            simp only [rowIds, rowVis_succ_cons, List.map_append, List.mem_append, hvch] at hu
            rcases hu' with rfl | hu'
            · rcases hu with h | h
              · exact absurd (Or.inl (rowIds_subset_ids cs e t.tid h)) hhead
              · exact absurd (Or.inr (rowIds_subset_ids vs (e + 1) t.tid h)) hhead
            · rcases hu with h | h
              · exact absurd (hdisj u (rowIds_subset_ids cs e u h)
                  (rowIds_subset_ids vs 0 u hu')) id
              · exact ihv2 (e + 1) 0 u h hu'
        | e + 1, f + 1 =>
            simp only [rowIds, rowVis_succ_cons, List.map_append, List.mem_append, hvch]
              at hu hu'
            rcases hu with h1 | h1 <;> rcases hu' with h2 | h2
            · rw [ihc2 e f u h1 h2]
            · exact absurd (hdisj u (rowIds_subset_ids cs e u h1)
                (rowIds_subset_ids vs (f + 1) u h2)) id
            · exact absurd (hdisj u (rowIds_subset_ids cs f u h2)
                (rowIds_subset_ids vs (e + 1) u h1)) id
            · exact ihv2 (e + 1) (f + 1) u h1 h2

theorem ids_cons_decomp (nd : Tree) (ccs : VForest) (w : ℚ) (vs : VForest) (u : Nat)
    (hu : u ∉ (VForest.cons (VInfo.mk nd ccs w) vs).ids) :
    u ≠ nd.tid ∧ u ∉ ccs.ids ∧ u ∉ vs.ids := by
  simp only [VForest.ids, List.mem_cons, List.mem_append] at hu
  push_neg at hu
  exact ⟨hu.1, hu.2.1, hu.2.2⟩

/-- The first pass writes only ids of the visible forest it receives. -/
theorem pass1_untouched (o : LayoutOpts) (vs : VForest) (startX : ℚ) (lvl : Nat)
    (s : LState) (u : Nat) (hu : u ∉ vs.ids) :
    posFind (pass1 o vs startX lvl s).2.positions u = posFind s.positions u := by
  induction vs, startX, lvl, s using pass1.induct o with
  | case1 startX lvl s => simp [pass1]
  | case2 nd w vs startX lvl s s0 s1 ih =>
      obtain ⟨h1, -, h3⟩ := ids_cons_decomp nd .nil w vs u hu
      simp only [pass1]
      exact (ih h3).trans (posFind_posSet_ne _ _ _ _ h1)
  | case3 nd c cs' w vs startX lvl s s0 cw csx s1 r2 s3 ihc iht =>
      obtain ⟨h1, h2, h3⟩ := ids_cons_decomp nd (.cons c cs') w vs u hu
      have hnode : u ∉ (VForest.cons c cs').nodeIds :=
        fun hh => h2 (nodeIds_subset_ids _ u hh)
      simp only [pass1]
      exact (iht h3).trans ((pass2_untouched o r2.1 (lvl + 1) (.cons c cs') 0 r2.2 u
        hnode).trans (ihc h2))

theorem rowNodes_nil (d : Nat) : rowNodes d .nil = [] := by
  simp [rowNodes, rowVis_nil]

theorem rowNodes_zero_cons (v : VInfo) (vs : VForest) :
    rowNodes 0 (.cons v vs) = v.node :: rowNodes 0 vs := by
  simp [rowNodes, rowVis_zero_cons]

theorem rowNodes_succ_cons (d : Nat) (v : VInfo) (vs : VForest) :
    rowNodes (d + 1) (.cons v vs) = rowNodes d v.vchildren ++ rowNodes (d + 1) vs := by
  simp [rowNodes, rowVis_succ_cons]

/-- Effect of the first pass on `nodesAtLevel`: rows above the current
level are untouched, row `lvl + d` receives exactly the visible nodes
sitting `d` levels below the processed forest (in traversal order), the
array only grows, and every nonempty row index is within bounds. -/
theorem pass1_rows_spec (o : LayoutOpts) (vs : VForest) (startX : ℚ) (lvl : Nat)
    (s : LState) (hlen : lvl < s.rows.length) :
    (∀ i, i < lvl → (pass1 o vs startX lvl s).2.rows.getD i [] = s.rows.getD i [])
      ∧ (∀ d, (pass1 o vs startX lvl s).2.rows.getD (lvl + d) []
          = s.rows.getD (lvl + d) [] ++ rowNodes d vs)
      ∧ s.rows.length ≤ (pass1 o vs startX lvl s).2.rows.length
      ∧ ∀ d, rowNodes d vs ≠ [] → lvl + d < (pass1 o vs startX lvl s).2.rows.length := by
  induction vs, startX, lvl, s using pass1.induct o with
  | case1 startX lvl s =>
      refine ⟨fun i _ => by simp [pass1], fun d => by simp [pass1, rowNodes_nil], ?_, ?_⟩
      · simp [pass1]
      · intro d hd
        exact absurd (rowNodes_nil d) hd
  | case2 nd w vs startX lvl s s0 s1 ih =>
      have hlen1 : lvl < s1.rows.length := by
        show lvl < (pushRow s.rows lvl nd).length
        rw [pushRow_length]
        exact hlen
      obtain ⟨iha, ihb, ihc, ihd⟩ := ih hlen1
      have hrow1 : ∀ i, i ≠ lvl → s1.rows.getD i [] = s.rows.getD i [] := by
        intro i hi
        exact pushRow_getD_ne s.rows lvl nd i hi
      have hrowl : s1.rows.getD lvl [] = s.rows.getD lvl [] ++ [nd] :=
        pushRow_getD_self s.rows lvl nd hlen
      refine ⟨?_, ?_, ?_, ?_⟩
      · intro i hi
        exact (iha i hi).trans (hrow1 i (Nat.ne_of_lt hi))
      · intro d
        cases d with
        | zero =>
            have hb0 := ihb 0
            simp only [Nat.add_zero] at hb0
            rw [hrowl] at hb0
            refine hb0.trans ?_
            rw [rowNodes_zero_cons]
            simp [VInfo.node]
        | succ d =>
            have hbd := ihb (d + 1)
            rw [hrow1 (lvl + (d + 1)) (by omega)] at hbd
            refine hbd.trans ?_
            rw [rowNodes_succ_cons]
            simp [VInfo.vchildren, rowNodes_nil]
      · refine le_trans ?_ ihc
        show s.rows.length ≤ (pushRow s.rows lvl nd).length
        rw [pushRow_length]
      · intro d hd
        cases d with
        | zero =>
            show lvl + 0 < (pass1 o vs (startX + w + o.horizontalSpacing) lvl s1).2.rows.length
            have h1 := hlen1
            have h2 := ihc
            omega
        | succ d =>
            rw [rowNodes_succ_cons] at hd
            simp only [VInfo.vchildren, rowNodes_nil, List.nil_append] at hd
            exact ihd (d + 1) hd
  | case3 nd c cs' w vs startX lvl s s0 cw csx s1 r2 s3 ihcc ihtt =>
      have hlen0 : s0.rows.length = s.rows.length := by
        show (pushRow s.rows lvl nd).length = s.rows.length
        rw [pushRow_length]
      have hlen1 : lvl + 1 < s1.rows.length := by
        show lvl + 1 < (ensureRow s0.rows (lvl + 1)).length
        exact ensureRow_lt_length _ _
      have hlen01 : s0.rows.length ≤ s1.rows.length := by
        show s0.rows.length ≤ (ensureRow s0.rows (lvl + 1)).length
        rw [ensureRow_length]
        omega
      obtain ⟨ca, cb, cc, cd⟩ := ihcc hlen1
      have hs3rows : s3.rows = r2.2.rows := pass2_rows ..
      have hr2len : r2.2.rows.length
          = (pass1 o (VForest.cons c cs') csx (lvl + 1) s1).2.rows.length := rfl
      have hlen3 : lvl < s3.rows.length := by
        rw [hs3rows, hr2len]
        omega
      obtain ⟨ta, tb, tc, td⟩ := ihtt hlen3
      have hrow1ne : ∀ i, i ≠ lvl → s1.rows.getD i [] = s.rows.getD i [] := by
        intro i hi
        show (ensureRow s0.rows (lvl + 1)).getD i [] = s.rows.getD i []
        rw [ensureRow_getD]
        exact pushRow_getD_ne s.rows lvl nd i hi
      have hrow1l : s1.rows.getD lvl [] = s.rows.getD lvl [] ++ [nd] := by
        show (ensureRow s0.rows (lvl + 1)).getD lvl [] = s.rows.getD lvl [] ++ [nd]
        rw [ensureRow_getD]
        exact pushRow_getD_self s.rows lvl nd hlen
      have hs3get : ∀ i, s3.rows.getD i [] = r2.2.rows.getD i [] := by
        intro i
        rw [hs3rows]
      refine ⟨?_, ?_, ?_, ?_⟩
      · intro i hi
        refine (ta i hi).trans ?_
        rw [hs3get i, ca i (by omega), hrow1ne i (by omega)]
      · intro d
        cases d with
        | zero =>
            have hb0 := tb 0
            simp only [Nat.add_zero] at hb0
            rw [hs3get lvl, ca lvl (by omega), hrow1l] at hb0
            refine hb0.trans ?_
            rw [rowNodes_zero_cons]
            simp [VInfo.node]
        | succ d =>
            have hbd := tb (d + 1)
            have harith : lvl + (d + 1) = (lvl + 1) + d := by omega
            rw [hs3get (lvl + (d + 1)), harith, cb d,
              hrow1ne ((lvl + 1) + d) (by omega)] at hbd
            rw [harith]
            refine hbd.trans ?_
            rw [rowNodes_succ_cons]
            simp [VInfo.vchildren]
      · show s.rows.length
            ≤ (pass1 o vs (startX + w + o.horizontalSpacing) lvl s3).2.rows.length
        have h3f := tc
        rw [hs3rows, hr2len] at h3f
        omega
      · intro d hd
        cases d with
        | zero =>
            show lvl + 0
                < (pass1 o vs (startX + w + o.horizontalSpacing) lvl s3).2.rows.length
            have h3f := tc
            rw [hs3rows, hr2len] at h3f
            omega
        | succ d =>
            rw [rowNodes_succ_cons] at hd
            simp only [VInfo.vchildren] at hd
            show lvl + (d + 1)
                < (pass1 o vs (startX + w + o.horizontalSpacing) lvl s3).2.rows.length
            by_cases hcne : rowNodes d (VForest.cons c cs') = []
            · have hvne : rowNodes (d + 1) vs ≠ [] := by
                intro hh
                exact hd (by rw [hcne, hh]; rfl)
              exact td (d + 1) hvne
            · have h1 := cd d hcne
              have h3f := tc
              rw [hs3rows, hr2len] at h3f
              omega

theorem rowIds_nil (d : Nat) : rowIds d .nil = [] := by
  simp [rowIds, rowVis_nil]

theorem rowIds_zero_cons (v : VInfo) (vs : VForest) :
    rowIds 0 (.cons v vs) = v.node.tid :: rowIds 0 vs := by
  simp [rowIds, rowVis_zero_cons]

theorem rowIds_succ_cons (d : Nat) (v : VInfo) (vs : VForest) :
    rowIds (d + 1) (.cons v vs) = rowIds d v.vchildren ++ rowIds (d + 1) vs := by
  simp [rowIds, rowVis_succ_cons]

/-- The second pass gives every top entry a position at the current level. -/
theorem pass2_sets (o : LayoutOpts) (endX : ℚ) (lvl : Nat) (vs : VForest) (i : Nat)
    (s : LState) (u : Nat) (hu : u ∈ vs.nodeIds) :
    ∃ x, posFind (pass2 o endX lvl vs i s).positions u = some (x, lvl) := by
  induction vs, i, s using pass2.induct o endX lvl with
  | case1 i s => simp [VForest.nodeIds] at hu
  | case2 nd w vs i s x ih =>
      by_cases h : u ∈ vs.nodeIds
      · exact ih h
      · have hu' : u = nd.tid := by
          simp only [VForest.nodeIds, List.mem_cons, VInfo.node] at hu
          tauto
        subst hu'
        exact ⟨x, (pass2_untouched o endX lvl vs (i + 1) _ _ h).trans
          (posFind_posSet_self ..)⟩
  | case3 nd c cs' w vs i s xs x ih =>
      by_cases h : u ∈ vs.nodeIds
      · exact ih h
      · have hu' : u = nd.tid := by
          simp only [VForest.nodeIds, List.mem_cons, VInfo.node] at hu
          tauto
        subst hu'
        exact ⟨x, (pass2_untouched o endX lvl vs (i + 1) _ _ h).trans
          (posFind_posSet_self ..)⟩

theorem pass2_pos_cases (o : LayoutOpts) (endX : ℚ) (lvl : Nat) (vs : VForest) (i : Nat)
    (s : LState) (u : Nat) :
    posFind (pass2 o endX lvl vs i s).positions u = posFind s.positions u
      ∨ (u ∈ vs.nodeIds
          ∧ ∃ x, posFind (pass2 o endX lvl vs i s).positions u = some (x, lvl)) := by
  by_cases h : u ∈ vs.nodeIds
  · exact Or.inr ⟨h, pass2_sets o endX lvl vs i s u h⟩
  · exact Or.inl (pass2_untouched o endX lvl vs i s u h)

/-- Every position the first pass writes belongs to a visible node and
carries the level at which that node sits. -/
theorem pass1_pos_cases (o : LayoutOpts) (vs : VForest) (startX : ℚ) (lvl : Nat)
    (s : LState) (u : Nat) :
    posFind (pass1 o vs startX lvl s).2.positions u = posFind s.positions u
      ∨ ∃ d x, u ∈ rowIds d vs
          ∧ posFind (pass1 o vs startX lvl s).2.positions u = some (x, lvl + d) := by
  induction vs, startX, lvl, s using pass1.induct o with
  | case1 startX lvl s =>
      left
      simp [pass1]
  | case2 nd w vs startX lvl s s0 s1 ih =>
      rcases ih with huntouched | ⟨d, x, hrow, heq⟩
      · by_cases hu : u = nd.tid
        · subst hu
          right
          refine ⟨0, startX + w / 2, ?_, ?_⟩
          · rw [rowIds_zero_cons]
            simp [VInfo.node]
          · rw [Nat.add_zero]
            exact huntouched.trans (posFind_posSet_self ..)
        · left
          exact huntouched.trans (posFind_posSet_ne _ _ _ _ hu)
      · right
        refine ⟨d, x, ?_, heq⟩
        cases d with
        | zero =>
            rw [rowIds_zero_cons]
            exact List.mem_cons_of_mem _ hrow
        | succ d =>
            rw [rowIds_succ_cons]
            exact List.mem_append.mpr (Or.inr hrow)
  | case3 nd c cs' w vs startX lvl s s0 cw csx s1 r2 s3 ihc iht =>
      have hvch : (VInfo.mk nd (VForest.cons c cs') w).vchildren = VForest.cons c cs' := rfl
      rcases iht with huntouched | ⟨d, x, hrow, heq⟩
      · rcases pass2_pos_cases o r2.1 (lvl + 1) (.cons c cs') 0 r2.2 u with h2 | ⟨hmem, x, h2⟩
        · rcases ihc with hcu | ⟨d, x, hrow, heq⟩
          · left
            exact huntouched.trans (h2.trans hcu)
          · right
            refine ⟨d + 1, x, ?_, ?_⟩
            · rw [rowIds_succ_cons, hvch]
              exact List.mem_append.mpr (Or.inl hrow)
            · have : lvl + (d + 1) = (lvl + 1) + d := by omega
              rw [this]
              exact huntouched.trans (h2.trans heq)
        · right
          refine ⟨1, x, ?_, ?_⟩
          · rw [rowIds_succ_cons, hvch]
            rw [nodeIds_eq_rowIds_zero] at hmem
            exact List.mem_append.mpr (Or.inl hmem)
          · exact huntouched.trans h2
      · right
        refine ⟨d, x, ?_, heq⟩
        cases d with
        | zero =>
            rw [rowIds_zero_cons]
            exact List.mem_cons_of_mem _ hrow
        | succ d =>
            rw [rowIds_succ_cons]
            exact List.mem_append.mpr (Or.inr hrow)

theorem ids_nodup_decomp (nd : Tree) (ccs : VForest) (w : ℚ) (vs : VForest)
    (h : (VForest.cons (VInfo.mk nd ccs w) vs).ids.Nodup) :
    ccs.ids.Nodup ∧ vs.ids.Nodup ∧ nd.tid ∉ ccs.ids ∧ nd.tid ∉ vs.ids
      ∧ ∀ u, u ∈ ccs.ids → u ∉ vs.ids := by
  simp only [VForest.ids, List.nodup_cons, List.mem_append] at h
  obtain ⟨hhead, happ⟩ := h
  push_neg at hhead
  exact ⟨happ.of_append_left, happ.of_append_right, hhead.1, hhead.2,
    fun u h1 h2 => (List.disjoint_of_nodup_append happ) h1 h2⟩

/-- With duplicate-free visible ids, the first pass positions every entry
strictly below the top at the level of its row. -/
theorem pass1_pos_exists (o : LayoutOpts) (vs : VForest) (startX : ℚ) (lvl : Nat)
    (s : LState) :
    ∀ d u, vs.ids.Nodup → u ∈ rowIds (d + 1) vs →
    ∃ x, posFind (pass1 o vs startX lvl s).2.positions u = some (x, lvl + (d + 1)) := by
  induction vs, startX, lvl, s using pass1.induct o with
  | case1 startX lvl s =>
      intro d u _ hu
      rw [rowIds_nil] at hu
      simp at hu
  | case2 nd w vs startX lvl s s0 s1 ih =>
      intro d u hnd hu
      rw [rowIds_succ_cons] at hu
      simp only [VInfo.vchildren, rowIds_nil, List.nil_append] at hu
      obtain ⟨-, hv, -, -, -⟩ := ids_nodup_decomp nd .nil w vs hnd
      exact ih d u hv hu
  | case3 nd c cs' w vs startX lvl s s0 cw csx s1 r2 s3 ihc iht =>
      intro d u hnd hu
      rw [rowIds_succ_cons] at hu
      simp only [VInfo.vchildren] at hu
      obtain ⟨hc, hv, -, -, hdisj⟩ := ids_nodup_decomp nd (.cons c cs') w vs hnd
      rcases List.mem_append.mp hu with hleft | hright
      · have hcids : u ∈ (VForest.cons c cs').ids := rowIds_subset_ids _ d u hleft
        have hnotvs : u ∉ vs.ids := hdisj u hcids
        have htail : posFind (pass1 o vs (startX + w + o.horizontalSpacing) lvl s3).2.positions u
            = posFind s3.positions u :=
          pass1_untouched o vs (startX + w + o.horizontalSpacing) lvl s3 u hnotvs
        cases d with
        | zero =>
            rw [← nodeIds_eq_rowIds_zero] at hleft
            obtain ⟨x, hx⟩ := pass2_sets o r2.1 (lvl + 1) (.cons c cs') 0 r2.2 u hleft
            exact ⟨x, htail.trans hx⟩
        | succ e =>
            have hnot0 : u ∉ (VForest.cons c cs').nodeIds := by
              rw [nodeIds_eq_rowIds_zero]
              intro h0
              exact absurd ((rowIds_nodup_and_unique _ hc).2 (e + 1) 0 u hleft h0)
                (by omega)
            obtain ⟨x, hx⟩ := ihc e u hc hleft
            refine ⟨x, htail.trans ?_⟩
            have hp2 : posFind s3.positions u = posFind r2.2.positions u :=
              pass2_untouched o r2.1 (lvl + 1) (.cons c cs') 0 r2.2 u hnot0
            rw [hp2, hx]
            have : lvl + (e + 1 + 1) = lvl + 1 + (e + 1) := by omega
            rw [this]
      · exact iht d u hv hright

theorem assignX_def (o : LayoutOpts) (vs : VForest) (x0 : ℚ) (lvl : Nat) (s : LState) :
    assignX o vs x0 lvl s
      = pass2 o (pass1 o vs x0 lvl ⟨s.positions, ensureRow s.rows lvl⟩).1 lvl vs 0
          (pass1 o vs x0 lvl ⟨s.positions, ensureRow s.rows lvl⟩).2 := rfl

theorem assignX_untouched (o : LayoutOpts) (vs : VForest) (x0 : ℚ) (lvl : Nat)
    (s : LState) (u : Nat) (hu : u ∉ vs.ids) :
    posFind (assignX o vs x0 lvl s).positions u = posFind s.positions u := by
  rw [assignX_def]
  exact (pass2_untouched o _ lvl vs 0 _ u (fun hh => hu (nodeIds_subset_ids _ u hh))).trans
    (pass1_untouched o vs x0 lvl _ u hu)

theorem assignX_pos_cases (o : LayoutOpts) (vs : VForest) (x0 : ℚ) (lvl : Nat)
    (s : LState) (u : Nat) :
    posFind (assignX o vs x0 lvl s).positions u = posFind s.positions u
      ∨ ∃ d x, u ∈ rowIds d vs
          ∧ posFind (assignX o vs x0 lvl s).positions u = some (x, lvl + d) := by
  rw [assignX_def]
  rcases pass2_pos_cases o (pass1 o vs x0 lvl ⟨s.positions, ensureRow s.rows lvl⟩).1 lvl vs 0
      (pass1 o vs x0 lvl ⟨s.positions, ensureRow s.rows lvl⟩).2 u with h2 | ⟨hmem, x, h2⟩
  · rcases pass1_pos_cases o vs x0 lvl ⟨s.positions, ensureRow s.rows lvl⟩ u
        with h1 | ⟨d, x, hrow, h1⟩
    · left
      exact h2.trans h1
    · right
      exact ⟨d, x, hrow, h2.trans h1⟩
  · right
    refine ⟨0, x, ?_, ?_⟩
    · rw [← nodeIds_eq_rowIds_zero]
      exact hmem
    · simpa using h2

theorem assignX_pos_exists (o : LayoutOpts) (vs : VForest) (x0 : ℚ) (lvl : Nat)
    (s : LState) (hnd : vs.ids.Nodup) (d : Nat) (u : Nat) (hu : u ∈ rowIds d vs) :
    ∃ x, posFind (assignX o vs x0 lvl s).positions u = some (x, lvl + d) := by
  rw [assignX_def]
  cases d with
  | zero =>
      rw [← nodeIds_eq_rowIds_zero] at hu
      obtain ⟨x, hx⟩ := pass2_sets o (pass1 o vs x0 lvl ⟨s.positions, ensureRow s.rows lvl⟩).1
        lvl vs 0 (pass1 o vs x0 lvl ⟨s.positions, ensureRow s.rows lvl⟩).2 u hu
      exact ⟨x, by simpa using hx⟩
  | succ d =>
      have hnot0 : u ∉ vs.nodeIds := by
        rw [nodeIds_eq_rowIds_zero]
        intro h0
        exact absurd ((rowIds_nodup_and_unique _ hnd).2 (d + 1) 0 u hu h0) (by omega)
      obtain ⟨x, hx⟩ := pass1_pos_exists o vs x0 lvl ⟨s.positions, ensureRow s.rows lvl⟩
        d u hnd hu
      refine ⟨x, ?_⟩
      rw [pass2_untouched o _ lvl vs 0 _ u hnot0, hx]

theorem assignX_rows (o : LayoutOpts) (vs : VForest) (x0 : ℚ) (lvl : Nat) (s : LState) :
    (∀ i, i < lvl → (assignX o vs x0 lvl s).rows.getD i [] = s.rows.getD i [])
      ∧ (∀ d, (assignX o vs x0 lvl s).rows.getD (lvl + d) []
          = s.rows.getD (lvl + d) [] ++ rowNodes d vs)
      ∧ ∀ d, rowNodes d vs ≠ [] → lvl + d < (assignX o vs x0 lvl s).rows.length := by
  rw [assignX_def]
  have h0 : lvl < (ensureRow s.rows lvl).length := ensureRow_lt_length _ _
  obtain ⟨ha, hb, hc, hd⟩ :=
    pass1_rows_spec o vs x0 lvl ⟨s.positions, ensureRow s.rows lvl⟩ h0
  have hrows : (pass2 o (pass1 o vs x0 lvl ⟨s.positions, ensureRow s.rows lvl⟩).1 lvl vs 0
      (pass1 o vs x0 lvl ⟨s.positions, ensureRow s.rows lvl⟩).2).rows
      = (pass1 o vs x0 lvl ⟨s.positions, ensureRow s.rows lvl⟩).2.rows := pass2_rows ..
  refine ⟨?_, ?_, ?_⟩
  · intro i hi
    rw [hrows, ha i hi]
    exact ensureRow_getD s.rows lvl i
  · intro d
    rw [hrows, hb d]
    rw [ensureRow_getD s.rows lvl (lvl + d)]
  · intro d hdne
    rw [hrows]
    exact hd d hdne

theorem VForest.ids_cons (v : VInfo) (vs : VForest) :
    (VForest.cons v vs).ids = v.node.tid :: (v.vchildren.ids ++ vs.ids) := by
  cases v
  rfl

theorem buildVForest_cons (o : LayoutOpts) (t : Tree) (ts : TForest) :
    buildVForest o (.cons t ts) = .cons (buildVInfo o t) (buildVForest o ts) := by
  obtain ⟨i, cs⟩ := t
  rfl

theorem buildVInfo_node (o : LayoutOpts) (t : Tree) : (buildVInfo o t).node = t := by
  obtain ⟨i, cs⟩ := t
  by_cases h : ((cs.length != 0) && o.exp i) = true <;>
    simp [buildVInfo, h, VInfo.node]

theorem buildVInfo_vchildren (o : LayoutOpts) (i : Nat) (cs : TForest) :
    (buildVInfo o (.mk i cs)).vchildren
      = if (cs.length != 0) && o.exp i then buildVForest o cs else .nil := by
  by_cases h : ((cs.length != 0) && o.exp i) = true <;>
    simp [buildVInfo, h, VInfo.vchildren]

theorem expand_guard_iff (o : LayoutOpts) (i : Nat) (cs : TForest) :
    ((cs.length != 0) && o.exp i) = true ↔ ¬ (cs.length = 0 ∨ o.exp i = false) := by
  by_cases h1 : cs.length = 0 <;> cases h2 : o.exp i <;> simp [h1, h2]

/-- The visible ids of the built forest are exactly the ids
`adjustSubtreePositions` would visit on the original children lists. -/
theorem buildVForest_ids (o : LayoutOpts) (ts : TForest) :
    (buildVForest o ts).ids = visChIds o ts := by
  induction ts using buildVForest.induct o with
  | case1 => rfl
  | case2 i cs ts ihc iht =>
      rw [buildVForest_cons, VForest.ids_cons, buildVInfo_node, buildVInfo_vchildren, iht]
      by_cases hg : ((cs.length != 0) && o.exp i) = true
      · rw [if_pos hg, ihc]
        have hg' := (expand_guard_iff o i cs).mp hg
        show Tree.tid (.mk i cs) :: (visChIds o cs ++ visChIds o ts) = _
        simp [visChIds, hg', Tree.tid]
      · rw [if_neg hg]
        have hg' : cs.length = 0 ∨ o.exp i = false := by
          by_contra hh
          exact hg ((expand_guard_iff o i cs).mpr hh)
        show Tree.tid (.mk i cs) :: (VForest.ids .nil ++ visChIds o ts) = _
        simp [visChIds, hg', Tree.tid, VForest.ids]

theorem visChIds_sublist_allIds (o : LayoutOpts) (ts : TForest) :
    (visChIds o ts).Sublist ts.allIds := by
  induction ts using visChIds.induct o with
  | case1 => simp [visChIds, TForest.allIds]
  | case2 j ccs cs ihc iht =>
      show ((j :: (if ccs.length = 0 ∨ o.exp j = false then [] else visChIds o ccs))
        ++ visChIds o cs).Sublist (j :: (TForest.allIds ccs ++ TForest.allIds cs))
      rw [show (j :: (if ccs.length = 0 ∨ o.exp j = false then [] else visChIds o ccs))
        ++ visChIds o cs
        = j :: ((if ccs.length = 0 ∨ o.exp j = false then [] else visChIds o ccs)
          ++ visChIds o cs) from rfl]
      refine List.Sublist.cons₂ j (List.Sublist.append ?_ iht)
      split
      · exact List.nil_sublist _
      · exact ihc

theorem ids_mem_row (vs : VForest) (u : Nat) (hu : u ∈ vs.ids) :
    ∃ d, u ∈ rowIds d vs := by
  induction vs using VForest.ids.induct with
  | case1 => simp [VForest.ids] at hu
  | case2 t cs w vs ihc ihv =>
      rw [show (VForest.cons (VInfo.mk t cs w) vs).ids
        = t.tid :: (cs.ids ++ vs.ids) from rfl] at hu
      rcases List.mem_cons.mp hu with rfl | hmem
      · refine ⟨0, ?_⟩
        rw [rowIds_zero_cons]
        simp [VInfo.node]
      · rcases List.mem_append.mp hmem with h | h
        · obtain ⟨d, hd⟩ := ihc h
          refine ⟨d + 1, ?_⟩
          rw [rowIds_succ_cons]
          exact List.mem_append.mpr (Or.inl (by simpa [VInfo.vchildren] using hd))
        · obtain ⟨d, hd⟩ := ihv h
          cases d with
          | zero =>
              refine ⟨0, ?_⟩
              rw [rowIds_zero_cons]
              exact List.mem_cons_of_mem _ hd
          | succ d =>
              refine ⟨d + 1, ?_⟩
              rw [rowIds_succ_cons]
              exact List.mem_append.mpr (Or.inr hd)

theorem rowVis_descend :
    ∀ (L : Nat) (vs : VForest) (vi : VInfo), vi ∈ rowVis L vs →
      ∀ d u, u ∈ rowIds d vi.vchildren → u ∈ rowIds (L + 1 + d) vs := by
  intro L vs
  induction L, vs using rowVis.induct with
  | case1 d =>
      intro vi h
      rw [rowVis_nil] at h
      simp at h
  | case2 v vs ih =>
      intro vi h d u hu
      rw [rowVis_zero_cons] at h
      have harith : 0 + 1 + d = d + 1 := by omega
      rw [harith, rowIds_succ_cons]
      rcases List.mem_cons.mp h with rfl | h'
      · exact List.mem_append.mpr (Or.inl hu)
      · have := ih vi h' d u hu
        have harith2 : 0 + 1 + d = d + 1 := by omega
        rw [harith2] at this
        exact List.mem_append.mpr (Or.inr this)
  | case3 d0 v vs ih1 ih2 =>
      intro vi h e u hu
      rw [rowVis_succ_cons] at h
      have harith : d0 + 1 + 1 + e = (d0 + 1 + e) + 1 := by omega
      rw [harith, rowIds_succ_cons]
      rcases List.mem_append.mp h with h' | h'
      · have := ih1 vi h' e u hu
        exact List.mem_append.mpr (Or.inl this)
      · have := ih2 vi h' e u hu
        have harith2 : d0 + 1 + 1 + e = (d0 + 1 + e) + 1 := by omega
        rw [harith2] at this
        exact List.mem_append.mpr (Or.inr this)

theorem rowVis_built (o : LayoutOpts) (ts : TForest) :
    ∀ L vi, vi ∈ rowVis L (buildVForest o ts) → vi = buildVInfo o vi.node := by
  induction ts using buildVForest.induct o with
  | case1 =>
      intro L vi h
      rw [show buildVForest o .nil = .nil from rfl, rowVis_nil] at h
      simp at h
  | case2 i cs ts ihc iht =>
      intro L vi h
      rw [buildVForest_cons] at h
      cases L with
      | zero =>
          rw [rowVis_zero_cons] at h
          rcases List.mem_cons.mp h with rfl | h'
          · rw [buildVInfo_node]
          · exact iht 0 vi h'
      | succ L =>
          rw [rowVis_succ_cons] at h
          rcases List.mem_append.mp h with h' | h'
          · rw [show (buildVInfo o (.mk i cs)).vchildren
              = if (cs.length != 0) && o.exp i then buildVForest o cs else .nil from
              buildVInfo_vchildren ..] at h'
            by_cases hg : ((cs.length != 0) && o.exp i) = true
            · rw [if_pos hg] at h'
              exact ihc L vi h'
            · rw [if_neg hg, rowVis_nil] at h'
              simp at h'
          · exact iht (L + 1) vi h'

theorem visDescIds_eq_built (o : LayoutOpts) (t : Tree) :
    visDescIds o t = (buildVInfo o t).vchildren.ids := by
  obtain ⟨i, cs⟩ := t
  rw [buildVInfo_vchildren]
  by_cases hg : ((cs.length != 0) && o.exp i) = true
  · rw [if_pos hg, buildVForest_ids]
    have hg' := (expand_guard_iff o i cs).mp hg
    simp [visDescIds, hg']
  · rw [if_neg hg]
    have hg' : cs.length = 0 ∨ o.exp i = false := by
      by_contra hh
      exact hg ((expand_guard_iff o i cs).mpr hh)
    simp [visDescIds, hg', VForest.ids]

/-- Every id `adjustSubtreePositions` visits below a node of row `L` of the
built visible forest belongs to some strictly deeper row. -/
theorem visDesc_deeper (o : LayoutOpts) (ts : TForest) (L : Nat) (t : Tree)
    (ht : t ∈ rowNodes L (buildVForest o ts)) (u : Nat)
    (hu : u ∈ visDescIds o t) :
    ∃ d, u ∈ rowIds (L + 1 + d) (buildVForest o ts) := by
  obtain ⟨vi, hvi, rfl⟩ := List.mem_map.mp (by simpa [rowNodes] using ht)
  have hbuilt := rowVis_built o ts L vi hvi
  rw [visDescIds_eq_built, ← hbuilt] at hu
  obtain ⟨d, hd⟩ := ids_mem_row vi.vchildren u hu
  exact ⟨d, rowVis_descend L (buildVForest o ts) vi hvi d u hd⟩

theorem posX_posAddX_self (p : PosMap) (k : Nat) (d : ℚ)
    (h : (posFind p k).isSome) : posX (posAddX p k d) k = posX p k + d := by
  obtain ⟨v, hv⟩ := Option.isSome_iff_exists.mp h
  simp [posX, posFind_posAddX, hv]

theorem posX_posAddX_ne (p : PosMap) (k : Nat) (d : ℚ) (k' : Nat) (h : k' ≠ k) :
    posX (posAddX p k d) k' = posX p k' := by
  simp [posX, posFind_posAddX_ne p k d k' h]

theorem isSome_of_posLevel_eq (p q : PosMap) (u : Nat)
    (h : posLevel q u = posLevel p u) (hs : (posFind p u).isSome) :
    (posFind q u).isSome := by
  unfold posLevel at h
  cases hq : posFind q u
  · rw [hq] at h
    cases hp : posFind p u
    · rw [hp] at hs
      simp at hs
    · rw [hp] at h
      simp at h
  · simp

/-- The subtree shift changes no level: it only adds to x fields. -/
theorem adjustForest_level (o : LayoutOpts) (adj : ℚ) (cs : TForest) (p : PosMap)
    (u : Nat) : posLevel (adjustForest o adj cs p) u = posLevel p u := by
  induction cs, p using adjustForest.induct o adj with
  | case1 p => rfl
  | case2 j ccs cs p p' ihin iht =>
      rw [show adjustForest o adj (.cons (.mk j ccs) cs) p = adjustForest o adj cs p'
        from rfl]
      rw [iht]
      show posLevel p' u = posLevel p u
      by_cases hsome : (posFind p j).isSome
      · rw [show p' = if (posFind p j).isSome then
            (if ccs.length = 0 ∨ o.exp j = false then posAddX p j adj
             else adjustForest o adj ccs (posAddX p j adj)) else p from rfl]
        rw [if_pos hsome]
        by_cases hg : ccs.length = 0 ∨ o.exp j = false
        · rw [if_pos hg]
          exact posLevel_posAddX ..
        · rw [if_neg hg]
          exact ihin.trans (posLevel_posAddX p j adj u)
      · rw [show p' = if (posFind p j).isSome then
            (if ccs.length = 0 ∨ o.exp j = false then posAddX p j adj
             else adjustForest o adj ccs (posAddX p j adj)) else p from rfl]
        rw [if_neg hsome]

theorem adjustSubtree_level (o : LayoutOpts) (adj : ℚ) (t : Tree) (p : PosMap)
    (u : Nat) : posLevel (adjustSubtree o adj t p) u = posLevel p u := by
  obtain ⟨i, cs⟩ := t
  show posLevel (if cs.length = 0 ∨ o.exp i = false then p else adjustForest o adj cs p) u
    = posLevel p u
  split
  · rfl
  · exact adjustForest_level ..

theorem shiftTrees_level (o : LayoutOpts) (adj : ℚ) (ts : List Tree) (p : PosMap)
    (u : Nat) : posLevel (shiftTrees o adj ts p) u = posLevel p u := by
  induction ts generalizing p with
  | nil => rfl
  | cons t ts ih =>
      show posLevel (shiftTrees o adj ts (adjustSubtree o adj t (posAddX p t.tid adj))) u
        = posLevel p u
      rw [ih, adjustSubtree_level, posLevel_posAddX]

/-- Ids outside the visited set keep their whole position entry. -/
theorem adjustForest_untouched (o : LayoutOpts) (adj : ℚ) (cs : TForest) (p : PosMap)
    (u : Nat) (hu : u ∉ visChIds o cs) :
    posFind (adjustForest o adj cs p) u = posFind p u := by
  induction cs, p using adjustForest.induct o adj with
  | case1 p => rfl
  | case2 j ccs cs p p' ihin iht =>
      rw [show visChIds o (.cons (.mk j ccs) cs)
        = (j :: (if ccs.length = 0 ∨ o.exp j = false then [] else visChIds o ccs))
          ++ visChIds o cs from rfl] at hu
      simp only [List.mem_append, List.mem_cons, not_or] at hu
      obtain ⟨⟨hj, hin⟩, hcs⟩ := hu
      rw [show adjustForest o adj (.cons (.mk j ccs) cs) p = adjustForest o adj cs p'
        from rfl]
      rw [iht hcs]
      show posFind p' u = posFind p u
      rw [show p' = if (posFind p j).isSome then
          (if ccs.length = 0 ∨ o.exp j = false then posAddX p j adj
           else adjustForest o adj ccs (posAddX p j adj)) else p from rfl]
      by_cases hsome : (posFind p j).isSome
      · rw [if_pos hsome]
        by_cases hg : ccs.length = 0 ∨ o.exp j = false
        · rw [if_pos hg]
          exact posFind_posAddX_ne p j adj u hj
        · rw [if_neg hg]
          rw [if_neg hg] at hin
          exact (ihin hin).trans (posFind_posAddX_ne p j adj u hj)
      · rw [if_neg hsome]

theorem adjustSubtree_untouched (o : LayoutOpts) (adj : ℚ) (t : Tree) (p : PosMap)
    (u : Nat) (hu : u ∉ visDescIds o t) :
    posFind (adjustSubtree o adj t p) u = posFind p u := by
  obtain ⟨i, cs⟩ := t
  show posFind (if cs.length = 0 ∨ o.exp i = false then p else adjustForest o adj cs p) u
    = posFind p u
  by_cases hg : cs.length = 0 ∨ o.exp i = false
  · rw [if_pos hg]
  · rw [if_neg hg]
    rw [show visDescIds o (.mk i cs)
      = if cs.length = 0 ∨ o.exp i = false then [] else visChIds o cs from rfl,
      if_neg hg] at hu
    exact adjustForest_untouched o adj cs p u hu

theorem shiftTrees_untouched (o : LayoutOpts) (adj : ℚ) (ts : List Tree) (p : PosMap)
    (u : Nat) (hid : u ∉ ts.map Tree.tid) (hdesc : ∀ t ∈ ts, u ∉ visDescIds o t) :
    posFind (shiftTrees o adj ts p) u = posFind p u := by
  induction ts generalizing p with
  | nil => rfl
  | cons t ts ih =>
      simp only [List.map_cons, List.mem_cons, not_or] at hid
      show posFind (shiftTrees o adj ts (adjustSubtree o adj t (posAddX p t.tid adj))) u
        = posFind p u
      rw [ih _ hid.2 (fun t' ht' => hdesc t' (List.mem_cons_of_mem _ ht'))]
      rw [adjustSubtree_untouched o adj t _ u (hdesc t (List.mem_cons_self ..))]
      exact posFind_posAddX_ne p t.tid adj u hid.1

/-- Each node listed in a suffix shift moves right by exactly the
adjustment, provided no listed node is a visible descendant of another. -/
theorem shiftTrees_adds (o : LayoutOpts) (adj : ℚ) (ts : List Tree) (p : PosMap)
    (hnd : (ts.map Tree.tid).Nodup)
    (hdisj : ∀ t ∈ ts, ∀ t' ∈ ts, t.tid ∉ visDescIds o t')
    (t : Tree) (ht : t ∈ ts) (hsome : (posFind p t.tid).isSome) :
    posX (shiftTrees o adj ts p) t.tid = posX p t.tid + adj := by
  induction ts generalizing p with
  | nil => simp at ht
  | cons t0 ts ih =>
      have hnd' : t0.tid ∉ ts.map Tree.tid ∧ (ts.map Tree.tid).Nodup :=
        List.nodup_cons.mp hnd
      show posX (shiftTrees o adj ts (adjustSubtree o adj t0 (posAddX p t0.tid adj))) t.tid
        = posX p t.tid + adj
      rcases List.mem_cons.mp ht with rfl | ht'
      · have hnotid : t.tid ∉ ts.map Tree.tid := hnd'.1
        have hnotdesc : ∀ t' ∈ ts, t.tid ∉ visDescIds o t' := fun t' ht' =>
          hdisj t (List.mem_cons_self ..) t' (List.mem_cons_of_mem _ ht')
        have h1 : posFind (shiftTrees o adj ts
              (adjustSubtree o adj t (posAddX p t.tid adj))) t.tid
            = posFind (adjustSubtree o adj t (posAddX p t.tid adj)) t.tid :=
          shiftTrees_untouched o adj ts _ t.tid hnotid hnotdesc
        have h2 : posFind (adjustSubtree o adj t (posAddX p t.tid adj)) t.tid
            = posFind (posAddX p t.tid adj) t.tid :=
          adjustSubtree_untouched o adj t _ t.tid
            (hdisj t (List.mem_cons_self ..) t (List.mem_cons_self ..))
        rw [posX, h1, h2, ← posX]
        exact posX_posAddX_self p t.tid adj hsome
      · have hne : t.tid ≠ t0.tid := by
          intro heq
          exact hnd'.1 (List.mem_map.mpr ⟨t, ht', heq⟩)
        have hstep : posFind (adjustSubtree o adj t0 (posAddX p t0.tid adj)) t.tid
            = posFind p t.tid := by
          rw [adjustSubtree_untouched o adj t0 _ t.tid
            (hdisj t ht t0 (List.mem_cons_self ..))]
          exact posFind_posAddX_ne p t0.tid adj t.tid hne
        have hsome' : (posFind (adjustSubtree o adj t0 (posAddX p t0.tid adj)) t.tid).isSome := by
          rw [hstep]
          exact hsome
        rw [ih _ hnd'.2
          (fun a ha b hb => hdisj a (List.mem_cons_of_mem _ ha) b (List.mem_cons_of_mem _ hb))
          ht' hsome']
        rw [posX, hstep, ← posX]

theorem posX_eq_of_posFind_eq (p q : PosMap) (u : Nat)
    (h : posFind p u = posFind q u) : posX p u = posX q u := by
  unfold posX
  rw [h]

theorem insertByX_perm (p : PosMap) (t : Tree) (l : List Tree) :
    (insertByX p t l).Perm (t :: l) := by
  induction l with
  | nil => exact List.Perm.refl _
  | cons u us ih =>
      show (if posX p t.tid < posX p u.tid then t :: u :: us
        else u :: insertByX p t us).Perm (t :: u :: us)
      split
      · exact List.Perm.refl _
      · exact (ih.cons u).trans (List.Perm.swap t u us)

theorem sortByX_perm_aux (p : PosMap) :
    ∀ (ts acc : List Tree),
      (ts.foldl (fun a t => insertByX p t a) acc).Perm (acc ++ ts) := by
  intro ts
  induction ts with
  | nil => intro acc; simp
  | cons t ts ih =>
      intro acc
      show (ts.foldl (fun a t => insertByX p t a) (insertByX p t acc)).Perm (acc ++ t :: ts)
      refine (ih (insertByX p t acc)).trans ?_
      refine (List.Perm.append_right ts (insertByX_perm p t acc)).trans ?_
      exact List.perm_middle.symm

/-- The model of the stable JS sort permutes the level's node list. -/
theorem sortByX_perm (p : PosMap) (ts : List Tree) : (sortByX p ts).Perm ts := by
  have h := sortByX_perm_aux p ts []
  simpa [sortByX] using h

theorem pairwise_ne_or {R : Tree → Tree → Prop} :
    ∀ (l : List Tree), l.Pairwise R → ∀ a ∈ l, ∀ b ∈ l, a ≠ b → R a b ∨ R b a := by
  intro l h
  induction h with
  | nil => intro a ha; simp at ha
  | cons hhead htail ih =>
      intro a ha b hb hne
      rcases List.mem_cons.mp ha with rfl | ha'
      · rcases List.mem_cons.mp hb with rfl | hb'
        · exact absurd rfl hne
        · exact Or.inl (hhead b hb')
      · rcases List.mem_cons.mp hb with rfl | hb'
        · exact Or.inr (hhead a ha')
        · exact ih a ha' b hb' hne

/-- The left-to-right collision scan: levels are preserved, ids outside the
scanned suffix and its visible subtrees are untouched, and afterwards each
consecutive pair of the scanned list (in order) is separated by at least
`nodeWidth + horizontalSpacing`. -/
theorem scanGo_spec (o : LayoutOpts) :
    ∀ (rest : List Tree) (prev : Tree) (p : PosMap),
      ((prev :: rest).map Tree.tid).Nodup →
      (∀ t ∈ prev :: rest, ∀ t' ∈ prev :: rest, t.tid ∉ visDescIds o t') →
      (∀ t ∈ prev :: rest, (posFind p t.tid).isSome) →
      (∀ u, posLevel (scanGo o prev rest p) u = posLevel p u)
      ∧ (∀ u, u ∉ rest.map Tree.tid → (∀ t ∈ rest, u ∉ visDescIds o t) →
          posFind (scanGo o prev rest p) u = posFind p u)
      ∧ List.Chain' (fun a b =>
          posX (scanGo o prev rest p) a.tid + (o.nodeWidth + o.horizontalSpacing)
            ≤ posX (scanGo o prev rest p) b.tid) (prev :: rest) := by
  intro rest
  induction rest with
  | nil =>
      intro prev p hnd hdisj hsome
      exact ⟨fun u => rfl, fun u h1 h2 => rfl, List.chain'_singleton prev⟩
  | cons cur rest ih =>
      intro prev p hnd hdisj hsome
      have hnd' := List.nodup_cons.mp hnd
      have hnd'' := List.nodup_cons.mp hnd'.2
      have hdisj' : ∀ t ∈ cur :: rest, ∀ t' ∈ cur :: rest, t.tid ∉ visDescIds o t' :=
        fun t ht t' ht' => hdisj t (List.mem_cons_of_mem _ ht) t' (List.mem_cons_of_mem _ ht')
      have hsome' : ∀ t ∈ cur :: rest, (posFind p t.tid).isSome :=
        fun t ht => hsome t (List.mem_cons_of_mem _ ht)
      have hprevrest : prev.tid ∉ rest.map Tree.tid :=
        fun h => hnd'.1 (List.mem_cons_of_mem _ h)
      have hprevdesc : ∀ t ∈ cur :: rest, prev.tid ∉ visDescIds o t :=
        fun t ht => hdisj prev (List.mem_cons_self ..) t (List.mem_cons_of_mem _ ht)
      have hcurdesc : ∀ t ∈ rest, cur.tid ∉ visDescIds o t :=
        fun t ht => hdisj' cur (List.mem_cons_self ..) t (List.mem_cons_of_mem _ ht)
      have hunfold : scanGo o prev (cur :: rest) p
          = if posX p cur.tid - posX p prev.tid < o.nodeWidth + o.horizontalSpacing then
              scanGo o cur rest (shiftTrees o
                (o.nodeWidth + o.horizontalSpacing - (posX p cur.tid - posX p prev.tid))
                (cur :: rest) p)
            else scanGo o cur rest p := rfl
      by_cases hlt : posX p cur.tid - posX p prev.tid < o.nodeWidth + o.horizontalSpacing
      · rw [hunfold, if_pos hlt]
        have hA4 : ∀ u, u ∉ (cur :: rest).map Tree.tid →
            (∀ t ∈ cur :: rest, u ∉ visDescIds o t) →
            posFind (shiftTrees o
              (o.nodeWidth + o.horizontalSpacing - (posX p cur.tid - posX p prev.tid))
              (cur :: rest) p) u = posFind p u :=
          fun u h1 h2 => shiftTrees_untouched o _ _ p u h1 h2
        have hlevel1 : ∀ u, posLevel (shiftTrees o
            (o.nodeWidth + o.horizontalSpacing - (posX p cur.tid - posX p prev.tid))
            (cur :: rest) p) u = posLevel p u := fun u => shiftTrees_level ..
        have hsome1 : ∀ t ∈ cur :: rest, (posFind (shiftTrees o
            (o.nodeWidth + o.horizontalSpacing - (posX p cur.tid - posX p prev.tid))
            (cur :: rest) p) t.tid).isSome :=
          fun t ht => isSome_of_posLevel_eq p _ t.tid (hlevel1 t.tid) (hsome' t ht)
        have hadds : ∀ t ∈ cur :: rest, posX (shiftTrees o
            (o.nodeWidth + o.horizontalSpacing - (posX p cur.tid - posX p prev.tid))
            (cur :: rest) p) t.tid = posX p t.tid
              + (o.nodeWidth + o.horizontalSpacing - (posX p cur.tid - posX p prev.tid)) :=
          fun t ht => shiftTrees_adds o _ (cur :: rest) p hnd'.2 hdisj' t ht (hsome' t ht)
        obtain ⟨ih1, ih2, ih3⟩ := ih cur _ hnd'.2 hdisj' hsome1
        refine ⟨fun u => (ih1 u).trans (hlevel1 u), ?_, ?_⟩
        · intro u hu1 hu2
          have hu1' : u ∉ rest.map Tree.tid := fun h => hu1 (List.mem_cons_of_mem _ h)
          have hu2' : ∀ t ∈ rest, u ∉ visDescIds o t :=
            fun t ht => hu2 t (List.mem_cons_of_mem _ ht)
          exact (ih2 u hu1' hu2').trans (hA4 u hu1 hu2)
        · rw [List.chain'_cons]
          refine ⟨?_, ih3⟩
          have hprev1 : posFind (shiftTrees o
              (o.nodeWidth + o.horizontalSpacing - (posX p cur.tid - posX p prev.tid))
              (cur :: rest) p) prev.tid = posFind p prev.tid :=
            hA4 prev.tid hnd'.1 hprevdesc
          have hprev2 := ih2 prev.tid hprevrest
            (fun t ht => hprevdesc t (List.mem_cons_of_mem _ ht))
          have hcur2 := ih2 cur.tid hnd''.1 hcurdesc
          have eprev : posX (scanGo o cur rest (shiftTrees o
              (o.nodeWidth + o.horizontalSpacing - (posX p cur.tid - posX p prev.tid))
              (cur :: rest) p)) prev.tid = posX p prev.tid :=
            (posX_eq_of_posFind_eq _ _ _ hprev2).trans (posX_eq_of_posFind_eq _ _ _ hprev1)
          have ecur : posX (scanGo o cur rest (shiftTrees o
              (o.nodeWidth + o.horizontalSpacing - (posX p cur.tid - posX p prev.tid))
              (cur :: rest) p)) cur.tid = posX p cur.tid
                + (o.nodeWidth + o.horizontalSpacing - (posX p cur.tid - posX p prev.tid)) :=
            (posX_eq_of_posFind_eq _ _ _ hcur2).trans (hadds cur (List.mem_cons_self ..))
          rw [eprev, ecur]
          linarith
      · rw [hunfold, if_neg hlt]
        obtain ⟨ih1, ih2, ih3⟩ := ih cur p hnd'.2 hdisj' hsome'
        refine ⟨ih1, ?_, ?_⟩
        · intro u hu1 hu2
          exact ih2 u (fun h => hu1 (List.mem_cons_of_mem _ h))
            (fun t ht => hu2 t (List.mem_cons_of_mem _ ht))
        · rw [List.chain'_cons]
          refine ⟨?_, ih3⟩
          have hprev2 := ih2 prev.tid hprevrest
            (fun t ht => hprevdesc t (List.mem_cons_of_mem _ ht))
          have hcur2 := ih2 cur.tid hnd''.1 hcurdesc
          rw [posX_eq_of_posFind_eq _ _ _ hprev2, posX_eq_of_posFind_eq _ _ _ hcur2]
          linarith

theorem map_tid_rowNodes (d : Nat) (vs : VForest) :
    (rowNodes d vs).map Tree.tid = rowIds d vs := by
  unfold rowNodes rowIds
  rw [List.map_map]
  rfl

/-- Collision resolution on one level: levels preserved, ids of strictly
shallower rows untouched, and every distinct pair of the level ends at
least `nodeWidth + horizontalSpacing` apart. -/
theorem scanLevel_spec (o : LayoutOpts) (hWg : 0 ≤ o.nodeWidth + o.horizontalSpacing)
    (nodes : List Tree) (p : PosMap)
    (hnd : (nodes.map Tree.tid).Nodup)
    (hdisj : ∀ t ∈ nodes, ∀ t' ∈ nodes, t.tid ∉ visDescIds o t')
    (hsome : ∀ t ∈ nodes, (posFind p t.tid).isSome) :
    (∀ u, posLevel (scanLevel o nodes p) u = posLevel p u)
    ∧ (∀ u, u ∉ nodes.map Tree.tid → (∀ t ∈ nodes, u ∉ visDescIds o t) →
        posFind (scanLevel o nodes p) u = posFind p u)
    ∧ ∀ t ∈ nodes, ∀ t' ∈ nodes, t.tid ≠ t'.tid →
        o.nodeWidth + o.horizontalSpacing
          ≤ |posX (scanLevel o nodes p) t.tid - posX (scanLevel o nodes p) t'.tid| := by
  have hunfold : scanLevel o nodes p
      = if nodes.length ≤ 1 then p
        else match sortByX p nodes with
          | [] => p
          | t :: ts => scanGo o t ts p := rfl
  by_cases hlen : nodes.length ≤ 1
  · rw [hunfold, if_pos hlen]
    refine ⟨fun u => rfl, fun u h1 h2 => rfl, ?_⟩
    intro t ht t' ht' hne
    exfalso
    apply hne
    rcases nodes with _ | ⟨a, _ | ⟨b, l⟩⟩
    · simp at ht
    · rw [List.mem_singleton] at ht ht'
      rw [ht, ht']
    · simp at hlen
  · have hperm0 := sortByX_perm p nodes
    cases hs : sortByX p nodes with
    | nil =>
        exfalso
        rw [hs] at hperm0
        have := hperm0.length_eq
        simp at this
        omega
    | cons t0 ts0 =>
        rw [hs] at hperm0
        have hval : scanLevel o nodes p = scanGo o t0 ts0 p := by
          rw [hunfold, if_neg hlen, hs]
        have hmem : ∀ x, x ∈ t0 :: ts0 ↔ x ∈ nodes := fun x => hperm0.mem_iff
        have hnd2 : ((t0 :: ts0).map Tree.tid).Nodup :=
          ((hperm0.map Tree.tid).nodup_iff).mpr hnd
        have hdisj2 : ∀ t ∈ t0 :: ts0, ∀ t' ∈ t0 :: ts0, t.tid ∉ visDescIds o t' :=
          fun t ht t' ht' => hdisj t ((hmem t).mp ht) t' ((hmem t').mp ht')
        have hsome2 : ∀ t ∈ t0 :: ts0, (posFind p t.tid).isSome :=
          fun t ht => hsome t ((hmem t).mp ht)
        obtain ⟨s1, s2, s3⟩ := scanGo_spec o ts0 t0 p hnd2 hdisj2 hsome2
        refine ⟨?_, ?_, ?_⟩
        · intro u
          rw [hval]
          exact s1 u
        · intro u h1 h2
          rw [hval]
          refine s2 u ?_ ?_
          · intro hmem'
            obtain ⟨t, ht, htid⟩ := List.mem_map.mp hmem'
            exact h1 (List.mem_map.mpr ⟨t, (hmem t).mp (List.mem_cons_of_mem _ ht), htid⟩)
          · exact fun t ht => h2 t ((hmem t).mp (List.mem_cons_of_mem _ ht))
        · intro t ht t' ht' hne
          have htrans : ∀ a b c : Tree,
              posX (scanGo o t0 ts0 p) a.tid + (o.nodeWidth + o.horizontalSpacing)
                ≤ posX (scanGo o t0 ts0 p) b.tid →
              posX (scanGo o t0 ts0 p) b.tid + (o.nodeWidth + o.horizontalSpacing)
                ≤ posX (scanGo o t0 ts0 p) c.tid →
              posX (scanGo o t0 ts0 p) a.tid + (o.nodeWidth + o.horizontalSpacing)
                ≤ posX (scanGo o t0 ts0 p) c.tid := by
            intro a b c hab hbc
            linarith
          haveI : IsTrans Tree (fun a b =>
              posX (scanGo o t0 ts0 p) a.tid + (o.nodeWidth + o.horizontalSpacing)
                ≤ posX (scanGo o t0 ts0 p) b.tid) := ⟨htrans⟩
          have hpw := List.chain'_iff_pairwise.mp s3
          have hneq : t ≠ t' := fun he => hne (by rw [he])
          rcases pairwise_ne_or (t0 :: ts0) hpw t ((hmem t).mpr ht) t' ((hmem t').mpr ht')
              hneq with h | h
          · rw [hval]
            exact le_abs.mpr (Or.inr (by linarith))
          · rw [hval]
            exact le_abs.mpr (Or.inl (by linarith))

theorem collisionFold_zero (o : LayoutOpts) (s : LState) :
    collisionFold o s 0 = s.positions := by
  simp [collisionFold]

theorem collisionFold_succ (o : LayoutOpts) (s : LState) (K : Nat) :
    collisionFold o s (K + 1) = scanLevel o (s.rows.getD K []) (collisionFold o s K) := by
  unfold collisionFold
  rw [List.range_succ, List.foldl_append]
  rfl

theorem layout_eq_fold (o : LayoutOpts) (ts : TForest) :
    layout o ts = collisionFold o (layoutState o ts) (layoutState o ts).rows.length := rfl

theorem layoutState_rows (o : LayoutOpts) (ts : TForest) (L : Nat) :
    (layoutState o ts).rows.getD L [] = rowNodes L (buildVForest o ts) := by
  obtain ⟨-, hb, -⟩ := assignX_rows o (buildVForest o ts) o.horizontalSpacing 0 ⟨[], []⟩
  have h := hb L
  rw [Nat.zero_add] at h
  simpa [layoutState] using h

theorem layoutState_rows_length (o : LayoutOpts) (ts : TForest) (L : Nat)
    (h : rowNodes L (buildVForest o ts) ≠ []) :
    L < (layoutState o ts).rows.length := by
  obtain ⟨-, -, hc⟩ := assignX_rows o (buildVForest o ts) o.horizontalSpacing 0 ⟨[], []⟩
  have h2 := hc L h
  rw [Nat.zero_add] at h2
  simpa [layoutState] using h2

theorem layoutState_pos (o : LayoutOpts) (ts : TForest)
    (hnd : (buildVForest o ts).ids.Nodup) (L u : Nat)
    (hu : u ∈ rowIds L (buildVForest o ts)) :
    ∃ x, posFind (layoutState o ts).positions u = some (x, L) := by
  have h := assignX_pos_exists o (buildVForest o ts) o.horizontalSpacing 0 ⟨[], []⟩ hnd L u hu
  rw [Nat.zero_add] at h
  exact h

theorem layoutState_pos_cases (o : LayoutOpts) (ts : TForest) (u : Nat) :
    posFind (layoutState o ts).positions u = none
      ∨ ∃ d x, u ∈ rowIds d (buildVForest o ts)
          ∧ posFind (layoutState o ts).positions u = some (x, d) := by
  rcases assignX_pos_cases o (buildVForest o ts) o.horizontalSpacing 0 ⟨[], []⟩ u
    with h | ⟨d, x, hm, h⟩
  · left
    simpa [posFind] using h
  · right
    rw [Nat.zero_add] at h
    exact ⟨d, x, hm, h⟩

/-- C1 (no-overlap): after the full SimpleOrgChart layout (x assignment
followed by the per-level left-to-right collision scan that pushes a
collided node and its entire visible subtree rightward), for every input
forest with duplicate-free ids, every expansion state, and nonnegative
geometry, any two distinct visible nodes assigned to the same level end up
with x positions at least `nodeWidth + horizontalSpacing` apart. -/
theorem calculateDimensions_no_overlap (o : LayoutOpts) (ts : TForest)
    (hWg : 0 ≤ o.nodeWidth + o.horizontalSpacing)
    (hnd : (TForest.allIds ts).Nodup)
    (u v : Nat) (L : Nat) (xu xv : ℚ)
    (hu : posFind (layout o ts) u = some (xu, L))
    (hv : posFind (layout o ts) v = some (xv, L))
    (hne : u ≠ v) :
    o.nodeWidth + o.horizontalSpacing ≤ |xu - xv| := by
  have hVTnd : (buildVForest o ts).ids.Nodup := by
    rw [buildVForest_ids]
    exact hnd.sublist (visChIds_sublist_allIds o ts)
  have hrownd := rowIds_nodup_and_unique (buildVForest o ts) hVTnd
  have hrow : ∀ K, (layoutState o ts).rows.getD K []
      = rowNodes K (buildVForest o ts) := fun K => layoutState_rows o ts K
  have hdisjK : ∀ K, ∀ t ∈ rowNodes K (buildVForest o ts),
      ∀ t' ∈ rowNodes K (buildVForest o ts), t.tid ∉ visDescIds o t' := by
    intro K t ht t' ht' hmem
    obtain ⟨d, hd⟩ := visDesc_deeper o ts K t' ht' t.tid hmem
    have htid : t.tid ∈ rowIds K (buildVForest o ts) := by
      rw [← map_tid_rowNodes]
      exact List.mem_map.mpr ⟨t, ht, rfl⟩
    have := hrownd.2 K (K + 1 + d) t.tid htid hd
    omega
  have hndK : ∀ K, ((rowNodes K (buildVForest o ts)).map Tree.tid).Nodup := by
    intro K
    rw [map_tid_rowNodes]
    exact hrownd.1 K
  have hInv : ∀ K,
      (∀ w, posLevel (collisionFold o (layoutState o ts) K) w
          = posLevel (layoutState o ts).positions w)
      ∧ ∀ M, M < K → ∀ a b, a ∈ rowIds M (buildVForest o ts) →
          b ∈ rowIds M (buildVForest o ts) → a ≠ b →
          o.nodeWidth + o.horizontalSpacing
            ≤ |posX (collisionFold o (layoutState o ts) K) a
                - posX (collisionFold o (layoutState o ts) K) b| := by
    intro K
    induction K with
    | zero =>
        constructor
        · intro w
          rw [collisionFold_zero]
        · intro M hM
          exact absurd hM (Nat.not_lt_zero M)
    | succ K ih =>
        obtain ⟨ih1, ih2⟩ := ih
        have hsucc : collisionFold o (layoutState o ts) (K + 1)
            = scanLevel o (rowNodes K (buildVForest o ts))
                (collisionFold o (layoutState o ts) K) := by
          rw [collisionFold_succ, hrow K]
        have hsomeK : ∀ t ∈ rowNodes K (buildVForest o ts),
            (posFind (collisionFold o (layoutState o ts) K) t.tid).isSome := by
          intro t ht
          have htid : t.tid ∈ rowIds K (buildVForest o ts) := by
            rw [← map_tid_rowNodes]
            exact List.mem_map.mpr ⟨t, ht, rfl⟩
          obtain ⟨x, hx⟩ := layoutState_pos o ts hVTnd K t.tid htid
          refine isSome_of_posLevel_eq _ _ _ (ih1 t.tid) ?_
          rw [hx]
          rfl
        obtain ⟨t1, t2, t3⟩ := scanLevel_spec o hWg (rowNodes K (buildVForest o ts))
          (collisionFold o (layoutState o ts) K) (hndK K) (hdisjK K) hsomeK
        constructor
        · intro w
          rw [hsucc]
          exact (t1 w).trans (ih1 w)
        · intro M hM a b ha hb hab
          by_cases hMK : M < K
          · have huna : ∀ c, c ∈ rowIds M (buildVForest o ts) →
                posFind (scanLevel o (rowNodes K (buildVForest o ts))
                    (collisionFold o (layoutState o ts) K)) c
                  = posFind (collisionFold o (layoutState o ts) K) c := by
              intro c hc
              refine t2 c ?_ ?_
              · rw [map_tid_rowNodes]
                intro hcK
                have := hrownd.2 M K c hc hcK
                omega
              · intro t ht hdesc
                obtain ⟨d, hd⟩ := visDesc_deeper o ts K t ht c hdesc
                have := hrownd.2 M (K + 1 + d) c hc hd
                omega
            rw [hsucc, posX_eq_of_posFind_eq _ _ _ (huna a ha),
              posX_eq_of_posFind_eq _ _ _ (huna b hb)]
            exact ih2 M hMK a b ha hb hab
          · have hMeq : M = K := by omega
            subst hMeq
            rw [← map_tid_rowNodes] at ha hb
            obtain ⟨t, ht, rfl⟩ := List.mem_map.mp ha
            obtain ⟨t', ht', rfl⟩ := List.mem_map.mp hb
            rw [hsucc]
            exact t3 t ht t' ht' hab
  rcases layoutState_pos_cases o ts u with h0 | ⟨d, x, hmemu, hposu⟩
  · exfalso
    have hl := (hInv (layoutState o ts).rows.length).1 u
    rw [← layout_eq_fold] at hl
    unfold posLevel at hl
    rw [hu, h0] at hl
    simp at hl
  · rcases layoutState_pos_cases o ts v with h0 | ⟨d', x', hmemv, hposv⟩
    · exfalso
      have hl := (hInv (layoutState o ts).rows.length).1 v
      rw [← layout_eq_fold] at hl
      unfold posLevel at hl
      rw [hv, h0] at hl
      simp at hl
    · have hlu : L = d := by
        have hl := (hInv (layoutState o ts).rows.length).1 u
        rw [← layout_eq_fold] at hl
        unfold posLevel at hl
        rw [hu, hposu] at hl
        simpa using hl
      have hlv : L = d' := by
        have hl := (hInv (layoutState o ts).rows.length).1 v
        rw [← layout_eq_fold] at hl
        unfold posLevel at hl
        rw [hv, hposv] at hl
        simpa using hl
      subst hlu
      rw [← hlv] at hmemv
      have hrowne : rowNodes L (buildVForest o ts) ≠ [] := by
        intro hnil
        have hids : rowIds L (buildVForest o ts) = [] := by
          rw [← map_tid_rowNodes, hnil]
          rfl
        rw [hids] at hmemu
        simp at hmemu
      have hLN : L < (layoutState o ts).rows.length :=
        layoutState_rows_length o ts L hrowne
      have hsep := (hInv (layoutState o ts).rows.length).2 L hLN u v hmemu hmemv hne
      rw [← layout_eq_fold] at hsep
      have hxu : posX (layout o ts) u = xu := by
        unfold posX
        rw [hu]
        rfl
      have hxv : posX (layout o ts) v = xv := by
        unfold posX
        rw [hv]
        rfl
      rw [hxu, hxv] at hsep
      exact hsep

theorem layout_twoRoots_eval :
    posFind (layout sampleOpts twoRoots) 10 = some (390, 0)
    ∧ posFind (layout sampleOpts twoRoots) 11 = some (630, 0) := by
  norm_num [layout, collisionAdjust, layoutState, assignX, pass1, pass2, ensureRow, pushRow,
    posSet, posFind, posX, posAddX, posLevel, buildVForest, twoRoots, sampleOpts, vtotalWidth,
    vwidthSum, calculateTotalWidth, childXs, qMin, qMax, scanLevel, scanGo, sortByX, insertByX,
    shiftTrees, adjustSubtree, adjustForest, List.range_succ, Tree.tid,
    VInfo.node, VForest.nodeIds, visDescIds, visChIds]

theorem calculateDimensions_no_overlap_witness :
    (0 ≤ sampleOpts.nodeWidth + sampleOpts.horizontalSpacing)
    ∧ (TForest.allIds twoRoots).Nodup
    ∧ posFind (layout sampleOpts twoRoots) 10 = some (390, 0)
    ∧ posFind (layout sampleOpts twoRoots) 11 = some (630, 0)
    ∧ (10 : Nat) ≠ 11
    ∧ sampleOpts.nodeWidth + sampleOpts.horizontalSpacing ≤ |(390 : ℚ) - 630| :=
  ⟨by norm_num [sampleOpts], by decide, layout_twoRoots_eval.1, layout_twoRoots_eval.2,
    by decide,
    calculateDimensions_no_overlap sampleOpts twoRoots (by norm_num [sampleOpts]) (by decide)
      10 11 0 390 630 layout_twoRoots_eval.1 layout_twoRoots_eval.2 (by decide)⟩

theorem childXs_congr (p q : PosMap) (l : List Nat)
    (h : ∀ i ∈ l, posFind p i = posFind q i) : childXs p l = childXs q l := by
  induction l with
  | nil => rfl
  | cons i is ih =>
      show posX p i :: childXs p is = posX q i :: childXs q is
      rw [posX_eq_of_posFind_eq p q i (h i (List.mem_cons_self ..)),
        ih (fun j hj => h j (List.mem_cons_of_mem _ hj))]

/-- A child id of a top entry of `vs` belongs to `vs.ids` but not to
`vs.nodeIds` (given duplicate-free visible ids). -/
theorem child_of_top_mem (vs : VForest) (vi : VInfo) (hvi : vi ∈ rowVis 0 vs)
    (u : Nat) (hu : u ∈ vi.vchildren.nodeIds) : u ∈ rowIds 1 vs := by
  rw [nodeIds_eq_rowIds_zero] at hu
  have h := rowVis_descend 0 vs vi hvi 0 u hu
  simpa using h

/-- The second pass writes each parent entry the midpoint of its children's
x positions as read from the state handed to the pass (those reads are
never invalidated: the pass writes only top-entry ids). -/
theorem pass2_centers (o : LayoutOpts) (endX : ℚ) (lvl : Nat) (vs : VForest) (i : Nat)
    (s : LState) (hnd : vs.ids.Nodup) :
    ∀ vi ∈ rowVis 0 vs, vi.vchildren ≠ .nil →
      posFind (pass2 o endX lvl vs i s).positions vi.node.tid
        = some ((qMin (childXs s.positions vi.vchildren.nodeIds)
            + qMax (childXs s.positions vi.vchildren.nodeIds)) / 2, lvl) := by
  induction vs, i, s using pass2.induct o endX lvl with
  | case1 i s =>
      intro vi h
      rw [rowVis_nil] at h
      simp at h
  | case2 nd w vs i s x ih =>
      intro vi hvi hch
      rw [rowVis_zero_cons] at hvi
      rcases List.mem_cons.mp hvi with rfl | hvi'
      · exact absurd rfl hch
      · obtain ⟨-, hv, -, htidv, -⟩ := ids_nodup_decomp nd .nil w vs hnd
        have hxeq : childXs (posSet s.positions nd.tid (x, lvl)) vi.vchildren.nodeIds
            = childXs s.positions vi.vchildren.nodeIds := by
          apply childXs_congr
          intro u hu
          apply posFind_posSet_ne
          intro hequ
          subst hequ
          exact htidv (rowIds_subset_ids vs 1 nd.tid (child_of_top_mem vs vi hvi' nd.tid hu))
        exact (ih hv vi hvi' hch).trans (by rw [hxeq])
  | case3 nd c cs' w vs i s xs x ih =>
      intro vi hvi hch
      rw [rowVis_zero_cons] at hvi
      obtain ⟨-, hv, -, htidv, -⟩ := ids_nodup_decomp nd (.cons c cs') w vs hnd
      rcases List.mem_cons.mp hvi with rfl | hvi'
      · have huntouched : posFind (pass2 o endX lvl vs (i + 1)
            { s with positions := posSet s.positions nd.tid (x, lvl) }).positions nd.tid
            = posFind (posSet s.positions nd.tid (x, lvl)) nd.tid :=
          pass2_untouched o endX lvl vs (i + 1) _ nd.tid
            (fun h => htidv (nodeIds_subset_ids vs nd.tid h))
        exact huntouched.trans (posFind_posSet_self ..)
      · have hxeq : childXs (posSet s.positions nd.tid (x, lvl)) vi.vchildren.nodeIds
            = childXs s.positions vi.vchildren.nodeIds := by
          apply childXs_congr
          intro u hu
          apply posFind_posSet_ne
          intro hequ
          subst hequ
          exact htidv (rowIds_subset_ids vs 1 nd.tid (child_of_top_mem vs vi hvi' nd.tid hu))
        exact (ih hv vi hvi' hch).trans (by rw [hxeq])

theorem row_tid_mem (d : Nat) (vs : VForest) (vi : VInfo) (hvi : vi ∈ rowVis d vs) :
    vi.node.tid ∈ rowIds d vs :=
  List.mem_map_of_mem _ hvi

theorem row_child_mem (d : Nat) (vs : VForest) (vi : VInfo) (hvi : vi ∈ rowVis d vs)
    (u : Nat) (hu : u ∈ vi.vchildren.nodeIds) : u ∈ rowIds (d + 1) vs := by
  rw [nodeIds_eq_rowIds_zero] at hu
  have h := rowVis_descend d vs vi hvi 0 u hu
  simpa using h

/-- After the first pass over a sibling list (which runs the full
`assignXPositions` on every child list), every entry strictly below the top
is already centered over its visible children. -/
theorem pass1_centers (o : LayoutOpts) (vs : VForest) (startX : ℚ) (lvl : Nat) (s : LState)
    (hnd : vs.ids.Nodup) :
    ∀ d vi, vi ∈ rowVis (d + 1) vs → vi.vchildren ≠ .nil →
      posFind (pass1 o vs startX lvl s).2.positions vi.node.tid
        = some ((qMin (childXs (pass1 o vs startX lvl s).2.positions vi.vchildren.nodeIds)
            + qMax (childXs (pass1 o vs startX lvl s).2.positions vi.vchildren.nodeIds)) / 2,
          lvl + (d + 1)) := by
  induction vs, startX, lvl, s using pass1.induct o with
  | case1 startX lvl s =>
      intro d vi hvi
      rw [rowVis_nil] at hvi
      simp at hvi
  | case2 nd w vs startX lvl s s0 s1 ih =>
      intro d vi hvi hch
      rw [rowVis_succ_cons] at hvi
      simp only [VInfo.vchildren, rowVis_nil, List.nil_append] at hvi
      obtain ⟨-, hv, -, -, -⟩ := ids_nodup_decomp nd .nil w vs hnd
      exact ih hv d vi hvi hch
  | case3 nd c cs' w vs startX lvl s s0 cw csx s1 r2 s3 ihc iht =>
      intro d vi hvi hch
      rw [rowVis_succ_cons] at hvi
      obtain ⟨hc, hv, -, -, hdisj⟩ := ids_nodup_decomp nd (.cons c cs') w vs hnd
      have hvch : (VInfo.mk nd (VForest.cons c cs') w).vchildren = VForest.cons c cs' := rfl
      rcases List.mem_append.mp hvi with hleft | hright
      · rw [hvch] at hleft
        have htidrow : vi.node.tid ∈ rowIds d (.cons c cs') := row_tid_mem d _ vi hleft
        have htidnotvs : vi.node.tid ∉ vs.ids :=
          hdisj _ (rowIds_subset_ids _ d _ htidrow)
        have hchrow : ∀ u ∈ vi.vchildren.nodeIds, u ∈ rowIds (d + 1) (.cons c cs') :=
          fun u hu => row_child_mem d _ vi hleft u hu
        have hchnotvs : ∀ u ∈ vi.vchildren.nodeIds, u ∉ vs.ids :=
          fun u hu => hdisj u (rowIds_subset_ids _ (d + 1) u (hchrow u hu))
        have htid3 : posFind (pass1 o vs (startX + w + o.horizontalSpacing) lvl s3).2.positions
            vi.node.tid = posFind s3.positions vi.node.tid :=
          pass1_untouched o vs _ lvl s3 _ htidnotvs
        have hch3 : childXs (pass1 o vs (startX + w + o.horizontalSpacing) lvl s3).2.positions
            vi.vchildren.nodeIds = childXs s3.positions vi.vchildren.nodeIds :=
          childXs_congr _ _ _ (fun u hu => pass1_untouched o vs _ lvl s3 u (hchnotvs u hu))
        have hrowu := rowIds_nodup_and_unique (.cons c cs') hc
        have hchnot0 : ∀ u ∈ vi.vchildren.nodeIds, u ∉ (VForest.cons c cs').nodeIds := by
          intro u hu h0
          rw [nodeIds_eq_rowIds_zero] at h0
          have := hrowu.2 (d + 1) 0 u (hchrow u hu) h0
          omega
        have hchp2 : childXs s3.positions vi.vchildren.nodeIds
            = childXs r2.2.positions vi.vchildren.nodeIds :=
          childXs_congr _ _ _ (fun u hu =>
            pass2_untouched o r2.1 (lvl + 1) (.cons c cs') 0 r2.2 u (hchnot0 u hu))
        cases d with
        | zero =>
            have hs3 : posFind s3.positions vi.node.tid
                = some ((qMin (childXs r2.2.positions vi.vchildren.nodeIds)
                    + qMax (childXs r2.2.positions vi.vchildren.nodeIds)) / 2, lvl + 1) :=
              pass2_centers o r2.1 (lvl + 1) (.cons c cs') 0 r2.2 hc vi hleft hch
            have hfin : posFind
                (pass1 o vs (startX + w + o.horizontalSpacing) lvl s3).2.positions vi.node.tid
                = some ((qMin (childXs
                      (pass1 o vs (startX + w + o.horizontalSpacing) lvl s3).2.positions
                      vi.vchildren.nodeIds)
                    + qMax (childXs
                      (pass1 o vs (startX + w + o.horizontalSpacing) lvl s3).2.positions
                      vi.vchildren.nodeIds)) / 2, lvl + (0 + 1)) := by
              rw [htid3, hs3, hch3, hchp2]
            exact hfin
        | succ e =>
            have htidnot0 : vi.node.tid ∉ (VForest.cons c cs').nodeIds := by
              intro h0
              rw [nodeIds_eq_rowIds_zero] at h0
              have := hrowu.2 (e + 1) 0 vi.node.tid htidrow h0
              omega
            have hs3r2 : posFind r2.2.positions vi.node.tid
                = some ((qMin (childXs r2.2.positions vi.vchildren.nodeIds)
                    + qMax (childXs r2.2.positions vi.vchildren.nodeIds)) / 2,
                  lvl + 1 + (e + 1)) := ihc hc e vi hleft hch
            rw [show lvl + 1 + (e + 1) = lvl + (e + 1 + 1) from by omega] at hs3r2
            have htidp2 : posFind s3.positions vi.node.tid
                = posFind r2.2.positions vi.node.tid :=
              pass2_untouched o r2.1 (lvl + 1) (.cons c cs') 0 r2.2 _ htidnot0
            have hfin : posFind
                (pass1 o vs (startX + w + o.horizontalSpacing) lvl s3).2.positions vi.node.tid
                = some ((qMin (childXs
                      (pass1 o vs (startX + w + o.horizontalSpacing) lvl s3).2.positions
                      vi.vchildren.nodeIds)
                    + qMax (childXs
                      (pass1 o vs (startX + w + o.horizontalSpacing) lvl s3).2.positions
                      vi.vchildren.nodeIds)) / 2, lvl + (e + 1 + 1)) := by
              rw [htid3, htidp2, hs3r2, hch3, hchp2]
            exact hfin
      · exact iht hv d vi hright hch

/-- After the full `assignXPositions` run on a sibling list, every visible
entry with visible children sits at the midpoint of its children's final x
positions. -/
theorem assignX_centers (o : LayoutOpts) (vs : VForest) (x0 : ℚ) (lvl : Nat) (s : LState)
    (hnd : vs.ids.Nodup) (d : Nat) (vi : VInfo) (hvi : vi ∈ rowVis d vs)
    (hch : vi.vchildren ≠ .nil) :
    posFind (assignX o vs x0 lvl s).positions vi.node.tid
      = some ((qMin (childXs (assignX o vs x0 lvl s).positions vi.vchildren.nodeIds)
          + qMax (childXs (assignX o vs x0 lvl s).positions vi.vchildren.nodeIds)) / 2,
        lvl + d) := by
  rw [assignX_def]
  have hrowu := rowIds_nodup_and_unique vs hnd
  have hchrow : ∀ u ∈ vi.vchildren.nodeIds, u ∈ rowIds (d + 1) vs :=
    fun u hu => row_child_mem d vs vi hvi u hu
  have hchnot0 : ∀ u ∈ vi.vchildren.nodeIds, u ∉ vs.nodeIds := by
    intro u hu h0
    rw [nodeIds_eq_rowIds_zero] at h0
    have := hrowu.2 (d + 1) 0 u (hchrow u hu) h0
    omega
  have hchF : childXs (pass2 o (pass1 o vs x0 lvl ⟨s.positions, ensureRow s.rows lvl⟩).1
        lvl vs 0 (pass1 o vs x0 lvl ⟨s.positions, ensureRow s.rows lvl⟩).2).positions
        vi.vchildren.nodeIds
      = childXs (pass1 o vs x0 lvl ⟨s.positions, ensureRow s.rows lvl⟩).2.positions
        vi.vchildren.nodeIds :=
    childXs_congr _ _ _ (fun u hu => pass2_untouched o _ lvl vs 0 _ u (hchnot0 u hu))
  cases d with
  | zero =>
      have hpc := pass2_centers o (pass1 o vs x0 lvl ⟨s.positions, ensureRow s.rows lvl⟩).1
        lvl vs 0 (pass1 o vs x0 lvl ⟨s.positions, ensureRow s.rows lvl⟩).2 hnd vi hvi hch
      exact hpc.trans (by rw [hchF, Nat.add_zero])
  | succ e =>
      have htidnot0 : vi.node.tid ∉ vs.nodeIds := by
        intro h0
        rw [nodeIds_eq_rowIds_zero] at h0
        have := hrowu.2 (e + 1) 0 vi.node.tid (row_tid_mem (e + 1) vs vi hvi) h0
        omega
      have huntouched : posFind (pass2 o
            (pass1 o vs x0 lvl ⟨s.positions, ensureRow s.rows lvl⟩).1 lvl vs 0
            (pass1 o vs x0 lvl ⟨s.positions, ensureRow s.rows lvl⟩).2).positions vi.node.tid
          = posFind (pass1 o vs x0 lvl ⟨s.positions, ensureRow s.rows lvl⟩).2.positions
            vi.node.tid :=
        pass2_untouched o _ lvl vs 0 _ _ htidnot0
      have hp1 := pass1_centers o vs x0 lvl ⟨s.positions, ensureRow s.rows lvl⟩ hnd e vi hvi hch
      exact huntouched.trans (hp1.trans (by rw [hchF]))

/-- C2 (amended): centering holds after `assignXPositions` and before the
collision adjustment — in the state `layoutState`, every visible node with
at least one visible child sits exactly at the midpoint of the minimum and
maximum x of its visible children, at the level of its row. -/
theorem assignXPositions_centering (o : LayoutOpts) (ts : TForest)
    (hnd : (TForest.allIds ts).Nodup) (L : Nat) (vi : VInfo)
    (hvi : vi ∈ rowVis L (buildVForest o ts)) (hch : vi.vchildren ≠ .nil) :
    posFind (layoutState o ts).positions vi.node.tid
      = some ((qMin (childXs (layoutState o ts).positions vi.vchildren.nodeIds)
          + qMax (childXs (layoutState o ts).positions vi.vchildren.nodeIds)) / 2, L) := by
  have hVTnd : (buildVForest o ts).ids.Nodup := by
    rw [buildVForest_ids]
    exact hnd.sublist (visChIds_sublist_allIds o ts)
  have h := assignX_centers o (buildVForest o ts) o.horizontalSpacing 0 ⟨[], []⟩ hVTnd
    L vi hvi hch
  rw [Nat.zero_add] at h
  exact h

theorem layout_cexTree_eval :
    posFind (layout sampleOpts cexTree) 0 = some (570, 0)
    ∧ posFind (layout sampleOpts cexTree) 1 = some (510, 1)
    ∧ posFind (layout sampleOpts cexTree) 2 = some (750, 1) := by
  norm_num [layout, collisionAdjust, layoutState, assignX, pass1, pass2, ensureRow, pushRow,
    posSet, posFind, posX, posAddX, posLevel, buildVForest, cexTree, cexRoot, sampleOpts,
    vtotalWidth, vwidthSum, calculateTotalWidth, childXs, qMin, qMax, scanLevel, scanGo,
    sortByX, insertByX, shiftTrees, adjustSubtree, adjustForest, List.range_succ, Tree.tid,
    Tree.tchildren, TForest.length, VForest.length, VInfo.node, VInfo.vchildren, VInfo.width,
    VForest.nodeIds, visDescIds, visChIds]

/-- C2 (counterexample): after the full layout of `cexTree` — x assignment
followed by the collision adjustment — the root (id 0) sits at x = 570
while the midpoint of its visible children (ids 1 and 2, at x = 510 and
750) is 630: the original full-layout centering claim fails. -/
theorem layout_centering_cex :
    ∃ L vi, vi ∈ rowVis L (buildVForest sampleOpts cexTree) ∧ vi.vchildren ≠ .nil ∧
      posX (layout sampleOpts cexTree) vi.node.tid
        ≠ (qMin (childXs (layout sampleOpts cexTree) vi.vchildren.nodeIds)
          + qMax (childXs (layout sampleOpts cexTree) vi.vchildren.nodeIds)) / 2 := by
  obtain ⟨h0, h1, h2⟩ := layout_cexTree_eval
  refine ⟨0, buildVInfo sampleOpts cexRoot, ?_, ?_, ?_⟩
  · have hb : buildVForest sampleOpts cexTree
        = .cons (buildVInfo sampleOpts cexRoot) (buildVForest sampleOpts .nil) :=
      buildVForest_cons sampleOpts cexRoot .nil
    rw [hb, rowVis_zero_cons]
    exact List.mem_cons_self ..
  · intro h
    exact VForest.noConfusion h
  · have hids : (buildVInfo sampleOpts cexRoot).vchildren.nodeIds = [1, 2] := rfl
    have htid : (buildVInfo sampleOpts cexRoot).node.tid = 0 := rfl
    rw [hids, htid]
    show posX (layout sampleOpts cexTree) 0
      ≠ (qMin (posX (layout sampleOpts cexTree) 1 :: posX (layout sampleOpts cexTree) 2 :: [])
        + qMax (posX (layout sampleOpts cexTree) 1 :: posX (layout sampleOpts cexTree) 2 :: []))
        / 2
    rw [show posX (layout sampleOpts cexTree) 0 = 570 from by rw [posX, h0]; rfl,
      show posX (layout sampleOpts cexTree) 1 = 510 from by rw [posX, h1]; rfl,
      show posX (layout sampleOpts cexTree) 2 = 750 from by rw [posX, h2]; rfl]
    norm_num [qMin, qMax]

theorem assignXPositions_centering_witness :
    (TForest.allIds cexTree).Nodup
    ∧ buildVInfo sampleOpts cexRoot ∈ rowVis 0 (buildVForest sampleOpts cexTree)
    ∧ (buildVInfo sampleOpts cexRoot).vchildren ≠ .nil
    ∧ posFind (layoutState sampleOpts cexTree).positions
          (buildVInfo sampleOpts cexRoot).node.tid
        = some ((qMin (childXs (layoutState sampleOpts cexTree).positions
              (buildVInfo sampleOpts cexRoot).vchildren.nodeIds)
            + qMax (childXs (layoutState sampleOpts cexTree).positions
              (buildVInfo sampleOpts cexRoot).vchildren.nodeIds)) / 2, 0) := by
  have hmem : buildVInfo sampleOpts cexRoot ∈ rowVis 0 (buildVForest sampleOpts cexTree) := by
    have hb : buildVForest sampleOpts cexTree
        = .cons (buildVInfo sampleOpts cexRoot) (buildVForest sampleOpts .nil) :=
      buildVForest_cons sampleOpts cexRoot .nil
    rw [hb, rowVis_zero_cons]
    exact List.mem_cons_self ..
  have hch : (buildVInfo sampleOpts cexRoot).vchildren ≠ .nil := by
    intro h
    exact VForest.noConfusion h
  exact ⟨by decide, hmem, hch,
    assignXPositions_centering sampleOpts cexTree (by decide) 0 _ hmem hch⟩

/-- The second pass writes each childless entry at loop index `j` (with the
counter starting at `i`) the x position
`endX - spacing - nodeWidth/2 + (i+j)*(nodeWidth + spacing)`. -/
theorem pass2_childless (o : LayoutOpts) (endX : ℚ) (lvl : Nat) :
    ∀ (vs : VForest) (i : Nat) (s : LState) (j : Nat) (vi : VInfo),
    vs.get j = some vi → vi.vchildren = .nil → vs.nodeIds.Nodup →
    posFind (pass2 o endX lvl vs i s).positions vi.node.tid
      = some (endX - o.horizontalSpacing - o.nodeWidth / 2
          + ((i + j : Nat) : ℚ) * (o.nodeWidth + o.horizontalSpacing), lvl) := by
  intro vs i s
  induction vs, i, s using pass2.induct o endX lvl with
  | case1 i s =>
      intro j vi hj
      simp [VForest.get] at hj
  | case2 nd w vs i s x ih =>
      intro j vi hj hch hnd
      have hnd' : (VInfo.mk nd VForest.nil w).node.tid ∉ vs.nodeIds ∧ vs.nodeIds.Nodup :=
        List.nodup_cons.mp hnd
      cases j with
      | zero =>
          have hvi : vi = VInfo.mk nd .nil w := by
            rw [show (VForest.cons (VInfo.mk nd .nil w) vs).get 0
              = some (VInfo.mk nd .nil w) from rfl] at hj
            exact (Option.some.injEq ..).mp hj.symm
          subst hvi
          have huntouched := pass2_untouched o endX lvl vs (i + 1)
            { s with positions := posSet s.positions nd.tid (x, lvl) }
            (VInfo.mk nd VForest.nil w).node.tid hnd'.1
          refine huntouched.trans ((posFind_posSet_self ..).trans ?_)
          rw [show ((i + 0 : Nat) : ℚ) = (i : ℚ) from by norm_num]
      | succ e =>
          have hje : vs.get e = some vi := hj
          have h := ih e vi hje hch hnd'.2
          rw [show ((i + 1 + e : Nat) : ℚ) = ((i + (e + 1) : Nat) : ℚ) from by push_cast; ring]
            at h
          exact h
  | case3 nd c cs' w vs i s xs x ih =>
      intro j vi hj hch hnd
      have hnd' : (VInfo.mk nd (VForest.cons c cs') w).node.tid ∉ vs.nodeIds
          ∧ vs.nodeIds.Nodup := List.nodup_cons.mp hnd
      cases j with
      | zero =>
          have hvi : vi = VInfo.mk nd (.cons c cs') w := by
            rw [show (VForest.cons (VInfo.mk nd (.cons c cs') w) vs).get 0
              = some (VInfo.mk nd (.cons c cs') w) from rfl] at hj
            exact (Option.some.injEq ..).mp hj.symm
          subst hvi
          exact absurd hch (fun h => VForest.noConfusion h)
      | succ e =>
          have hje : vs.get e = some vi := hj
          have h := ih e vi hje hch hnd'.2
          rw [show ((i + 1 + e : Nat) : ℚ) = ((i + (e + 1) : Nat) : ℚ) from by push_cast; ring]
            at h
          exact h

/-- C8 (amended): in `assignXPositions`, a childless entry at index `j` of
the sibling list does not keep its pass-1 x; the second pass overwrites it
with `endX - spacing - nodeWidth/2 + j*(nodeWidth + spacing)`, where `endX`
is the cursor value at the end of the first pass. -/
theorem assignXPositions_childless_second_pass (o : LayoutOpts) (vs : VForest) (x0 : ℚ)
    (lvl : Nat) (s : LState) (hnd : vs.nodeIds.Nodup) (j : Nat) (vi : VInfo)
    (hj : vs.get j = some vi) (hch : vi.vchildren = .nil) :
    posFind (assignX o vs x0 lvl s).positions vi.node.tid
      = some ((pass1 o vs x0 lvl ⟨s.positions, ensureRow s.rows lvl⟩).1
          - o.horizontalSpacing - o.nodeWidth / 2
          + (j : ℚ) * (o.nodeWidth + o.horizontalSpacing), lvl) := by
  rw [assignX_def]
  have h := pass2_childless o (pass1 o vs x0 lvl ⟨s.positions, ensureRow s.rows lvl⟩).1 lvl
    vs 0 (pass1 o vs x0 lvl ⟨s.positions, ensureRow s.rows lvl⟩).2 j vi hj hch hnd
  rw [show ((0 + j : Nat) : ℚ) = (j : ℚ) from by push_cast; ring] at h
  exact h

/-- C8 (counterexample): for `twoRoots` the first pass places id 10 at
x = 150, but after the second pass (still inside `assignXPositions`) id 10
sits at x = 390 — a childless node does not keep its pass-1 x when its
sibling list has length two. -/
theorem assignXPositions_childless_cex :
    posFind (pass1 sampleOpts (buildVForest sampleOpts twoRoots) 60 0
        ⟨[], ensureRow [] 0⟩).2.positions 10 = some (150, 0)
    ∧ posFind (layoutState sampleOpts twoRoots).positions 10 = some (390, 0)
    ∧ (150 : ℚ) ≠ 390 := by
  refine ⟨?_, ?_, by norm_num⟩ <;>
    norm_num [layoutState, assignX, pass1, pass2, ensureRow, pushRow, posSet, posFind,
      buildVForest, twoRoots, sampleOpts, vtotalWidth, vwidthSum, calculateTotalWidth,
      childXs, qMin, qMax, posX, Tree.tid, Tree.tchildren, TForest.length, VForest.length,
      VInfo.node, VInfo.vchildren, VInfo.width, VForest.nodeIds]

theorem assignXPositions_childless_second_pass_witness :
    ((buildVForest sampleOpts twoRoots).nodeIds.Nodup)
    ∧ (buildVForest sampleOpts twoRoots).get 0 = some (buildVInfo sampleOpts (.mk 10 .nil))
    ∧ (buildVInfo sampleOpts (.mk 10 .nil)).vchildren = .nil
    ∧ posFind (layoutState sampleOpts twoRoots).positions
          (buildVInfo sampleOpts (.mk 10 .nil)).node.tid
        = some ((pass1 sampleOpts (buildVForest sampleOpts twoRoots) 60 0
            ⟨[], ensureRow [] 0⟩).1
          - sampleOpts.horizontalSpacing - sampleOpts.nodeWidth / 2
          + ((0 : Nat) : ℚ) * (sampleOpts.nodeWidth + sampleOpts.horizontalSpacing), 0) := by
  have hnd : (buildVForest sampleOpts twoRoots).nodeIds.Nodup := by decide
  have hget : (buildVForest sampleOpts twoRoots).get 0
      = some (buildVInfo sampleOpts (.mk 10 .nil)) := rfl
  have hch : (buildVInfo sampleOpts (.mk 10 .nil)).vchildren = VForest.nil := rfl
  exact ⟨hnd, hget, hch,
    assignXPositions_childless_second_pass sampleOpts (buildVForest sampleOpts twoRoots)
      60 0 ⟨[], []⟩ hnd 0 (buildVInfo sampleOpts (.mk 10 .nil)) hget hch⟩

theorem cfgForest_eq_map (pol : Nat → Bool) (f : TForest) (lv : Nat) :
    cfgForest pol f lv = (nodeDepths f lv).map (fun p => (p.1, pol p.2)) := by
  induction f, lv using cfgForest.induct pol with
  | case1 lv => rfl
  | case2 i cs ts lv ihc iht =>
      show ((i, pol lv) :: (if cs.length > 0 then cfgForest pol cs (lv + 1) else []))
          ++ cfgForest pol ts lv
        = (((i, lv) :: nodeDepths cs (lv + 1)) ++ nodeDepths ts lv).map
            (fun p => (p.1, pol p.2))
      by_cases h : cs.length > 0
      · rw [if_pos h, ihc, iht]
        simp
      · have hnil : cs = .nil := by
          cases cs with
          | nil => rfl
          | cons t ts' => simp [TForest.length] at h
        subst hnil
        rw [if_neg h, iht]
        simp [nodeDepths]

/-- C6 (initial expansion policy): after a (re)build the expansion map is
exactly the traversal of the tree tagging each node with the policy value
at its depth — `initiallyExpanded OR level < initialVisibleLevels` for the
HTML variant, AND for the Simple variant; with the defaults
(`initiallyExpanded = false`, `initialVisibleLevels = 1`) the Simple
variant marks every node collapsed while the HTML variant marks every root
expanded. -/
theorem configureInitialExpansion_policy (ie : Bool) (ivl : Nat) (f : TForest)
    (t : Tree) (ts : TForest) :
    cfgHTML ie ivl f = (nodeDepths f 0).map (fun p => (p.1, ie || decide (p.2 < ivl)))
    ∧ cfgSimple ie ivl f = (nodeDepths f 0).map (fun p => (p.1, ie && decide (p.2 < ivl)))
    ∧ cfgSimple false 1 f = (nodeDepths f 0).map (fun p => (p.1, false))
    ∧ (t.tid, true) ∈ cfgHTML false 1 (.cons t ts) := by
  refine ⟨cfgForest_eq_map _ f 0, cfgForest_eq_map _ f 0, ?_, ?_⟩
  · rw [cfgSimple, cfgForest_eq_map]
    simp
  · obtain ⟨i, cs⟩ := t
    rw [cfgHTML, cfgForest_eq_map]
    rw [show nodeDepths (.cons (.mk i cs) ts) 0
      = ((i, 0) :: nodeDepths cs 1) ++ nodeDepths ts 0 from rfl]
    simp [Tree.tid]

/-- C3 (zoom-focal invariant): a `handleWheel` step of HTMLOrgChart keeps
the content-space point under the cursor fixed: with nonzero prior scale,
`(focal - translate)/scale` is unchanged in both coordinates (the new
scale being `clamp(scale ± 0.1, 0.1, 3)`). -/
theorem handleWheel_focal_invariant (scale tx ty : ℚ) (zoomOut : Bool) (mx my : ℚ)
    (hs : scale ≠ 0) :
    (mx - (wheelStep scale tx ty zoomOut mx my).2.1) / (wheelStep scale tx ty zoomOut mx my).1
      = (mx - tx) / scale
    ∧ (my - (wheelStep scale tx ty zoomOut mx my).2.2) / (wheelStep scale tx ty zoomOut mx my).1
      = (my - ty) / scale := by
  have hpos : (0 : ℚ) < max (1/10) (min 3 (scale + if zoomOut then -(1/10) else 1/10)) :=
    lt_of_lt_of_le (by norm_num) (le_max_left ..)
  have hm : max (1/10 : ℚ) (min 3 (scale + if zoomOut then -(1/10) else 1/10)) ≠ 0 :=
    ne_of_gt hpos
  constructor
  · show (mx - (mx - (mx - tx) / scale
        * max (1/10) (min 3 (scale + if zoomOut then -(1/10) else 1/10))))
      / max (1/10) (min 3 (scale + if zoomOut then -(1/10) else 1/10)) = (mx - tx) / scale
    rw [sub_sub_cancel, mul_div_assoc, div_self hm, mul_one]
  · show (my - (my - (my - ty) / scale
        * max (1/10) (min 3 (scale + if zoomOut then -(1/10) else 1/10))))
      / max (1/10) (min 3 (scale + if zoomOut then -(1/10) else 1/10)) = (my - ty) / scale
    rw [sub_sub_cancel, mul_div_assoc, div_self hm, mul_one]

theorem handleWheel_focal_invariant_witness :
    (1 : ℚ) ≠ 0
    ∧ ((100 : ℚ) - (wheelStep 1 0 0 false 100 50).2.1) / (wheelStep 1 0 0 false 100 50).1
        = ((100 : ℚ) - 0) / 1
    ∧ ((50 : ℚ) - (wheelStep 1 0 0 false 100 50).2.2) / (wheelStep 1 0 0 false 100 50).1
        = ((50 : ℚ) - 0) / 1 :=
  ⟨by norm_num,
    (handleWheel_focal_invariant 1 0 0 false 100 50 (by norm_num)).1,
    (handleWheel_focal_invariant 1 0 0 false 100 50 (by norm_num)).2⟩

/-- C9 (amended): `adjustZoom` always lands the scale inside [0.5, 3], and
a wheel step always lands it inside [0.1, 3]; but `setZoom` writes its
argument to the scale unclamped, so the claimed invariant over every
public zoom operation fails. -/
theorem zoom_scale_bounds (cw ch : ℚ) (st : ℚ × ℚ × ℚ) (delta z : ℚ)
    (zoomOut : Bool) (mx my tx ty scale : ℚ) :
    ((1/2 : ℚ) ≤ (adjustZoom cw ch st delta).1 ∧ (adjustZoom cw ch st delta).1 ≤ 3)
    ∧ (setZoom cw ch st z).1 = z
    ∧ ((1/10 : ℚ) ≤ (wheelStep scale tx ty zoomOut mx my).1
        ∧ (wheelStep scale tx ty zoomOut mx my).1 ≤ 3) := by
  refine ⟨⟨le_max_left .., ?_⟩, rfl, le_max_left .., ?_⟩
  · show max (1/2 : ℚ) (min 3 (st.1 + delta)) ≤ 3
    exact max_le (by norm_num) (min_le_left ..)
  · show max (1/10 : ℚ) (min 3 (scale + if zoomOut then -(1/10) else 1/10)) ≤ 3
    exact max_le (by norm_num) (min_le_left ..)

/-- C9 (counterexample): `setZoom 5` sets the scale to 5, outside the
claimed bounds [0.5, 3]. -/
theorem setZoom_bounds_cex :
    (setZoom 800 600 (1, 0, 0) 5).1 = 5
    ∧ ¬(((1/2 : ℚ) ≤ (setZoom 800 600 (1, 0, 0) 5).1)
        ∧ (setZoom 800 600 (1, 0, 0) 5).1 ≤ 3) := by
  constructor
  · rfl
  · rw [show (setZoom 800 600 (1, 0, 0) 5).1 = 5 from rfl]
    norm_num

theorem insertC_perm (c : SRec → SRec → Int) (a : SRec) (l : List SRec) :
    (insertC c a l).Perm (a :: l) := by
  induction l with
  | nil => exact List.Perm.refl _
  | cons b bs ih =>
      show (if c a b < 0 then a :: b :: bs else b :: insertC c a bs).Perm (a :: b :: bs)
      split
      · exact List.Perm.refl _
      · exact (ih.cons b).trans (List.Perm.swap a b bs)

theorem sortC_perm_aux (c : SRec → SRec → Int) :
    ∀ (l acc : List SRec),
      (l.foldl (fun acc a => insertC c a acc) acc).Perm (acc ++ l) := by
  intro l
  induction l with
  | nil => intro acc; simp
  | cons a l ih =>
      intro acc
      show (l.foldl (fun acc a => insertC c a acc) (insertC c a acc)).Perm (acc ++ a :: l)
      refine (ih (insertC c a acc)).trans ?_
      refine (List.Perm.append_right l (insertC_perm c a acc)).trans ?_
      exact List.perm_middle.symm

theorem sortC_perm (c : SRec → SRec → Int) (l : List SRec) : (sortC c l).Perm l := by
  have h := sortC_perm_aux c l []
  simpa [sortC] using h

theorem insertC_pairwise (c : SRec → SRec → Int)
    (hasym : ∀ x y, c x y < 0 → ¬(c y x < 0))
    (hletrans : ∀ x y z, ¬(c y x < 0) → ¬(c z y < 0) → ¬(c z x < 0))
    (a : SRec) (l : List SRec) (h : l.Pairwise (fun x y => ¬(c y x < 0))) :
    (insertC c a l).Pairwise (fun x y => ¬(c y x < 0)) := by
  induction l with
  | nil => simp [insertC]
  | cons b bs ih =>
      obtain ⟨hb, hbs⟩ := List.pairwise_cons.mp h
      show (if c a b < 0 then a :: b :: bs else b :: insertC c a bs).Pairwise
        (fun x y => ¬(c y x < 0))
      by_cases hab : c a b < 0
      · rw [if_pos hab]
        refine List.pairwise_cons.mpr ⟨?_, h⟩
        intro y hy
        rcases List.mem_cons.mp hy with rfl | hy'
        · exact hasym a y hab
        · exact hletrans a b y (hasym a b hab) (hb y hy')
      · rw [if_neg hab]
        refine List.pairwise_cons.mpr ⟨?_, ih hbs⟩
        intro y hy
        have hy2 := (insertC_perm c a bs).mem_iff.mp hy
        rcases List.mem_cons.mp hy2 with rfl | hy'
        · exact hab
        · exact hb y hy'

theorem sortC_pairwise_aux (c : SRec → SRec → Int)
    (hasym : ∀ x y, c x y < 0 → ¬(c y x < 0))
    (hletrans : ∀ x y z, ¬(c y x < 0) → ¬(c z y < 0) → ¬(c z x < 0)) :
    ∀ (l acc : List SRec), acc.Pairwise (fun x y => ¬(c y x < 0)) →
      (l.foldl (fun acc a => insertC c a acc) acc).Pairwise (fun x y => ¬(c y x < 0)) := by
  intro l
  induction l with
  | nil => intro acc h; exact h
  | cons a l ih =>
      intro acc h
      exact ih (insertC c a acc) (insertC_pairwise c hasym hletrans a acc h)

theorem sortC_pairwise (c : SRec → SRec → Int)
    (hasym : ∀ x y, c x y < 0 → ¬(c y x < 0))
    (hletrans : ∀ x y z, ¬(c y x < 0) → ¬(c z y < 0) → ¬(c z x < 0))
    (l : List SRec) :
    (sortC c l).Pairwise (fun x y => ¬(c y x < 0)) :=
  sortC_pairwise_aux c hasym hletrans l [] (List.Pairwise.nil)

/-- Round trip for a stable sort under a comparator that is a strict total
order on the list's (duplicate-free) elements: re-sorting by the flipped
comparator reverses the sorted list. -/
theorem sortC_roundtrip_general (c : SRec → SRec → Int)
    (hasym : ∀ x y, c x y < 0 → ¬(c y x < 0))
    (hletrans : ∀ x y z, ¬(c y x < 0) → ¬(c z y < 0) → ¬(c z x < 0))
    (l : List SRec)
    (htot : ∀ x ∈ l, ∀ y ∈ l, x ≠ y → c x y < 0 ∨ c y x < 0)
    (hnd : l.Nodup) :
    sortC (fun a b => c b a) (sortC c l) = (sortC c l).reverse := by
  have hpermm : (sortC c l).Perm l := sortC_perm c l
  have hmnd : (sortC c l).Nodup := (hpermm.nodup_iff).mpr hnd
  have hm_le := sortC_pairwise c hasym hletrans l
  have hm_strict : (sortC c l).Pairwise (fun a b => c a b < 0) := by
    refine List.Pairwise.imp_of_mem ?_ (hm_le.and hmnd)
    intro a b ha hb hab
    rcases htot a (hpermm.mem_iff.mp ha) b (hpermm.mem_iff.mp hb) hab.2 with h | h
    · exact h
    · exact absurd h hab.1
  have hasym2 : ∀ x y, (fun a b => c b a) x y < 0 → ¬((fun a b => c b a) y x < 0) :=
    fun x y h => hasym y x h
  have hletrans2 : ∀ x y z, ¬((fun a b => c b a) y x < 0) → ¬((fun a b => c b a) z y < 0) →
      ¬((fun a b => c b a) z x < 0) :=
    fun x y z h1 h2 => hletrans z y x h2 h1
  have hperm2 : (sortC (fun a b => c b a) (sortC c l)).Perm (sortC c l) :=
    sortC_perm (fun a b => c b a) (sortC c l)
  have hm2_nd : (sortC (fun a b => c b a) (sortC c l)).Nodup := (hperm2.nodup_iff).mpr hmnd
  have hm2_le := sortC_pairwise (fun a b => c b a) hasym2 hletrans2 (sortC c l)
  have hm2_strict : (sortC (fun a b => c b a) (sortC c l)).Pairwise
      (fun a b => c b a < 0) := by
    refine List.Pairwise.imp_of_mem ?_ (hm2_le.and hm2_nd)
    intro a b ha hb hab
    have ha' := hpermm.mem_iff.mp (hperm2.mem_iff.mp ha)
    have hb' := hpermm.mem_iff.mp (hperm2.mem_iff.mp hb)
    rcases htot a ha' b hb' hab.2 with h | h
    · exact absurd h hab.1
    · exact h
  have hrev_strict : (sortC c l).reverse.Pairwise (fun a b => c b a < 0) :=
    List.pairwise_reverse.mpr hm_strict
  have hperm_final : (sortC (fun a b => c b a) (sortC c l)).Perm (sortC c l).reverse :=
    hperm2.trans (List.reverse_perm (sortC c l)).symm
  haveI : IsAntisymm SRec (fun a b => c b a < 0) :=
    ⟨fun a b h1 h2 => absurd h2 (hasym b a h1)⟩
  exact List.eq_of_perm_of_sorted hperm_final hm2_strict hrev_strict

theorem cmpS_lt_iff (x y : SRec) :
    cmpS true x y < 0 ↔ (x.sname.toLower < y.sname.toLower
      ∨ (x.sname.toLower = y.sname.toLower ∧ x.sid < y.sid)) := by
  unfold cmpS
  by_cases h1 : x.sname.toLower < y.sname.toLower
  · rw [if_pos h1]
    simp [h1]
  · rw [if_neg h1]
    by_cases h2 : y.sname.toLower < x.sname.toLower
    · rw [if_pos h2]
      have hne : ¬(x.sname.toLower = y.sname.toLower) := by
        intro he
        rw [he] at h2
        exact lt_irrefl _ h2
      simp [h1, hne]
    · rw [if_neg h2]
      have heq : x.sname.toLower = y.sname.toLower := le_antisymm (not_lt.mp h2) (not_lt.mp h1)
      simp [h1, heq, sub_neg]

theorem cmpS_le_iff (x y : SRec) :
    ¬(cmpS true y x < 0) ↔ (x.sname.toLower < y.sname.toLower
      ∨ (x.sname.toLower = y.sname.toLower ∧ x.sid ≤ y.sid)) := by
  rw [cmpS_lt_iff]
  constructor
  · intro h
    push_neg at h
    obtain ⟨h1, h2⟩ := h
    rcases lt_or_eq_of_le (not_lt.mp h1) with hlt | heq
    · exact Or.inl hlt
    · exact Or.inr ⟨heq, h2 heq.symm⟩
  · intro h hlt
    rcases h with h | ⟨heq, hle⟩
    · rcases hlt with h' | ⟨heq', hlt'⟩
      · exact absurd h' (lt_asymm h)
      · rw [heq'] at h
        exact lt_irrefl _ h
    · rcases hlt with h' | ⟨heq', hlt'⟩
      · rw [heq] at h'
        exact lt_irrefl _ h'
      · omega

theorem cmpH_lt_iff (x y : SRec) :
    cmpH true x y < 0 ↔ x.sname.toLower < y.sname.toLower := by
  unfold cmpH
  by_cases h1 : x.sname.toLower < y.sname.toLower
  · rw [if_pos h1]
    simp [h1]
  · rw [if_neg h1]
    by_cases h2 : y.sname.toLower < x.sname.toLower
    · rw [if_pos h2]
      simp [h1]
    · rw [if_neg h2]
      simp [h1]

theorem cmpH_le_iff (x y : SRec) :
    ¬(cmpH true y x < 0) ↔ x.sname.toLower ≤ y.sname.toLower := by
  rw [cmpH_lt_iff, not_lt]

/-- The descending Simple comparator is exactly the ascending one with its
arguments swapped (including the id tie-break). -/
theorem cmpS_flip (a b : SRec) : cmpS false a b = cmpS true b a := by
  unfold cmpS
  by_cases h1 : a.sname.toLower < b.sname.toLower
  · by_cases h2 : b.sname.toLower < a.sname.toLower
    · exact absurd h2 (lt_asymm h1)
    · simp [h1, h2]
  · by_cases h2 : b.sname.toLower < a.sname.toLower
    · simp [h1, h2]
    · simp [h1, h2]

theorem cmpH_flip (a b : SRec) : cmpH false a b = cmpH true b a := by
  unfold cmpH
  by_cases h1 : a.sname.toLower < b.sname.toLower
  · by_cases h2 : b.sname.toLower < a.sname.toLower
    · exact absurd h2 (lt_asymm h1)
    · simp [h1, h2]
  · by_cases h2 : b.sname.toLower < a.sname.toLower
    · simp [h1, h2]
    · simp [h1, h2]

/-- C7 (amended): sorting ascending and then descending reverses the
sorted sibling order — for the SimpleOrgChart comparator whenever the
siblings' ids are duplicate-free (its comparator breaks name ties by id),
and for the HTMLOrgChart comparator only when the lower-cased sort keys
are duplicate-free (it returns 0 on ties, and the stable sort then keeps,
not reverses, the order of tied siblings). -/
theorem sortNodes_roundtrip (l : List SRec) :
    ((l.map SRec.sid).Nodup →
      sortC (cmpS false) (sortC (cmpS true) l) = (sortC (cmpS true) l).reverse)
    ∧ ((l.map (fun r => r.sname.toLower)).Nodup →
      sortC (cmpH false) (sortC (cmpH true) l) = (sortC (cmpH true) l).reverse) := by
  constructor
  · intro hnd
    have hflip : cmpS false = fun a b => cmpS true b a := by
      funext a b
      exact cmpS_flip a b
    rw [hflip]
    refine sortC_roundtrip_general (cmpS true) ?_ ?_ l ?_ (List.Nodup.of_map _ hnd)
    · intro x y hxy
      rw [cmpS_lt_iff] at hxy
      refine (cmpS_le_iff x y).mpr ?_
      rcases hxy with h | ⟨heq, hlt⟩
      · exact Or.inl h
      · exact Or.inr ⟨heq, le_of_lt hlt⟩
    · intro x y z h1 h2
      rw [cmpS_le_iff] at h1 h2
      refine (cmpS_le_iff x z).mpr ?_
      rcases h1 with h1 | ⟨he1, hi1⟩
      · rcases h2 with h2 | ⟨he2, hi2⟩
        · exact Or.inl (lt_trans h1 h2)
        · exact Or.inl (he2 ▸ h1)
      · rcases h2 with h2 | ⟨he2, hi2⟩
        · exact Or.inl (he1 ▸ h2)
        · exact Or.inr ⟨he1.trans he2, le_trans hi1 hi2⟩
    · intro x hx y hy hxy
      have hneq : x.sid ≠ y.sid :=
        fun he => hxy (List.inj_on_of_nodup_map hnd hx hy he)
      by_cases hv : x.sname.toLower < y.sname.toLower
      · exact Or.inl ((cmpS_lt_iff x y).mpr (Or.inl hv))
      · by_cases hv2 : y.sname.toLower < x.sname.toLower
        · exact Or.inr ((cmpS_lt_iff y x).mpr (Or.inl hv2))
        · have heq : x.sname.toLower = y.sname.toLower :=
            le_antisymm (not_lt.mp hv2) (not_lt.mp hv)
          rcases hneq.lt_or_lt with h | h
          · exact Or.inl ((cmpS_lt_iff x y).mpr (Or.inr ⟨heq, h⟩))
          · exact Or.inr ((cmpS_lt_iff y x).mpr (Or.inr ⟨heq.symm, h⟩))
  · intro hnd
    have hflip : cmpH false = fun a b => cmpH true b a := by
      funext a b
      exact cmpH_flip a b
    rw [hflip]
    refine sortC_roundtrip_general (cmpH true) ?_ ?_ l ?_ (List.Nodup.of_map _ hnd)
    · intro x y hxy
      rw [cmpH_lt_iff] at hxy
      exact (cmpH_le_iff x y).mpr (le_of_lt hxy)
    · intro x y z h1 h2
      rw [cmpH_le_iff] at h1 h2
      exact (cmpH_le_iff x z).mpr (le_trans h1 h2)
    · intro x hx y hy hxy
      have hneq : x.sname.toLower ≠ y.sname.toLower :=
        fun he => hxy (List.inj_on_of_nodup_map hnd hx hy he)
      rcases hneq.lt_or_lt with h | h
      · exact Or.inl ((cmpH_lt_iff x y).mpr h)
      · exact Or.inr ((cmpH_lt_iff y x).mpr h)

/-- C7 (counterexample): for HTMLOrgChart's comparator, which returns 0 on
ties, sorting two equal-named siblings ascending and then descending keeps
them in input order — not in the reverse of the ascending order. -/
theorem sortNodes_roundtrip_cex :
    sortC (cmpH false) (sortC (cmpH true) [tieA, tieB])
      ≠ (sortC (cmpH true) [tieA, tieB]).reverse := by
  have hA : ¬(cmpH true tieB tieA < 0) := by
    simp [cmpH, tieA, tieB]
  have hA2 : ¬(cmpH false tieB tieA < 0) := by
    simp [cmpH, tieA, tieB]
  have hasc : sortC (cmpH true) [tieA, tieB] = [tieA, tieB] := by
    show insertC (cmpH true) tieB (insertC (cmpH true) tieA []) = [tieA, tieB]
    rw [show insertC (cmpH true) tieA [] = [tieA] from rfl]
    show (if cmpH true tieB tieA < 0 then tieB :: [tieA] else tieA :: insertC (cmpH true) tieB [])
      = [tieA, tieB]
    rw [if_neg hA]
    rfl
  have hdesc : sortC (cmpH false) [tieA, tieB] = [tieA, tieB] := by
    show insertC (cmpH false) tieB (insertC (cmpH false) tieA []) = [tieA, tieB]
    rw [show insertC (cmpH false) tieA [] = [tieA] from rfl]
    show (if cmpH false tieB tieA < 0 then tieB :: [tieA]
        else tieA :: insertC (cmpH false) tieB []) = [tieA, tieB]
    rw [if_neg hA2]
    rfl
  rw [hasc, hdesc]
  intro h
  rw [show (List.reverse [tieA, tieB]) = [tieB, tieA] from rfl] at h
  injection h with h1 h2
  have h3 : tieA.sid = tieB.sid := congrArg SRec.sid h1
  rw [show tieA.sid = (1 : Int) from rfl, show tieB.sid = (2 : Int) from rfl] at h3
  norm_num at h3

end OrgChart